import Mathlib

/-!
Verification development for the SolFramingWeb repository.

Embedded modules:
* `SvgFrame` — the contour-to-geometry engine of `src/lib/svgFrame.ts`
  (`generateFrameSvg` and its helpers).
* `Dxf` — the DXF conversion pipeline of the API route module
  (`toInchesScale`, `bulgeToArcRadius`, `chooseArcCenter`, `chainPrimitives`
  and the primitive constructors used by `toFrameSpecFromDxf`).

Coordinates parsed from profile data or DXF text are decimal numbers; they are
embedded as rationals (`ℚ`).  Angular and square-root computations
(`Math.atan2`, `Math.sin`, `Math.atan`, `Math.sqrt`, `Math.hypot`) are
transcendental and are embedded over the reals (`ℝ`); the corresponding
definitions are `noncomputable`.  Where the chaining code only ever *compares*
a `Math.hypot` value against another such value or a constant, the comparison
is embedded in the equivalent square-free form on `ℚ` so that it stays
executable; lemmas `hypot_le_iff` and `hypot_lt_iff` below record the
equivalence.
-/

namespace JsMath

/-- Truncation toward zero, as used by the JavaScript `%` operator. -/
noncomputable def jsTrunc (r : ℝ) : ℝ :=
  if 0 ≤ r then (⌊r⌋ : ℝ) else -(⌊-r⌋ : ℝ)

/-- The JavaScript remainder operator `x % y` (sign follows the dividend). -/
noncomputable def jsMod (x y : ℝ) : ℝ :=
  x - y * jsTrunc (x / y)

/-- `Math.atan2 y x`: the angle of the vector `(x, y)`, in `(-π, π]`. -/
noncomputable def atan2 (y x : ℝ) : ℝ :=
  if 0 < x then Real.arctan (y / x)
  else if x < 0 then
    (if 0 ≤ y then Real.arctan (y / x) + Real.pi else Real.arctan (y / x) - Real.pi)
  else if 0 < y then Real.pi / 2
  else if y < 0 then -(Real.pi / 2)
  else 0

/-- `Math.hypot x y = √(x² + y²)`. -/
noncomputable def hypot (x y : ℝ) : ℝ :=
  Real.sqrt (x ^ 2 + y ^ 2)

end JsMath

namespace SvgFrame

/-- `PaintingDimensions` of `src/lib/svgFrame.ts`. -/
structure PaintingDimensions where
  width : ℚ
  height : ℚ
deriving DecidableEq

/-- `Vector2D` of `src/lib/svgFrame.ts`. -/
structure Vector2D where
  x : ℚ
  y : ℚ
deriving DecidableEq

/-- `ContourSegment = LineSegment | ArcSegment`.  A line segment carries an
optional relative `to` vector and optional `dx`/`dy` fallbacks; an arc segment
carries a mandatory `to`, a radius and an optional `clockwise` flag. -/
inductive ContourSegment
  | line (toPt : Option Vector2D) (dx dy : Option ℚ)
  | arc (toPt : Vector2D) (radius : ℚ) (clockwise : Option Bool)
deriving DecidableEq

/-- Whether a segment is a line (`segment.kind === 'line'`). -/
def ContourSegment.isLine : ContourSegment → Bool
  | .line _ _ _ => true
  | .arc _ _ _ => false

/-- `ProfileContour` of `src/lib/svgFrame.ts`. -/
structure ProfileContour where
  segments : List ContourSegment
  origin : Option Vector2D
deriving DecidableEq

/-- `FrameRectangle` of `src/lib/svgFrame.ts`. -/
structure FrameRectangle where
  offset : ℚ
  width : ℚ
  height : ℚ
deriving DecidableEq

/-- The transition classification strings returned by
`describeTransitionReason`, as an enumeration. -/
inductive TransitionReason
  | coplanarLine
  | lineToLine
  | lineToArc
  | arcToLine
  | arcTransition
deriving DecidableEq

/-- `HighlightBand` of `src/lib/svgFrame.ts`. -/
structure HighlightBand where
  fromOffset : ℚ
  toOffset : ℚ
  reason : TransitionReason
deriving DecidableEq

/-- The four numbers of the result's `viewBox` string
`"minX minY width height"`. -/
structure ViewBox where
  minX : ℚ
  minY : ℚ
  width : ℚ
  height : ℚ
deriving DecidableEq

/-- `FrameSvgResult` of `src/lib/svgFrame.ts`.  The `svg` markup string is a
rendering of `viewBox`, `rectangles` and the painting dimensions; its numeric
content is fully determined by the fields kept here, so the raw string is not
modeled. -/
structure FrameSvgResult where
  viewBox : ViewBox
  rectangles : List FrameRectangle
  highlightBands : List HighlightBand
deriving DecidableEq

/-- `SegmentComputation` of `src/lib/svgFrame.ts`.  The source field `end` is a
Lean keyword and is called `endPt` here. -/
structure SegmentComputation where
  start : Vector2D
  endPt : Vector2D
  vector : Vector2D
  segment : ContourSegment
deriving DecidableEq

/-- `PRECISION = 4`. -/
def PRECISION : ℕ := 4

/-- `round(value) = Number(value.toFixed(PRECISION))`: rounding to 4 decimal
digits, ties toward the larger value, per the ECMAScript `toFixed`
specification. -/
def round (value : ℚ) : ℚ :=
  (⌊value * 10 ^ PRECISION + 1 / 2⌋ : ℚ) / 10 ^ PRECISION

/-- `resolveEndPoint` of `src/lib/svgFrame.ts`: for a line,
`dx = segment.to?.x ?? segment.dx ?? 0` (likewise `dy`); for an arc the `to`
vector is mandatory. -/
def resolveEndPoint (segment : ContourSegment) (start : Vector2D) : Vector2D :=
  match segment with
  | .line toPt dx dy =>
    let ddx := match toPt with
      | some v => v.x
      | none => dx.getD 0
    let ddy := match toPt with
      | some v => v.y
      | none => dy.getD 0
    ⟨start.x + ddx, start.y + ddy⟩
  | .arc toPt _ _ => ⟨start.x + toPt.x, start.y + toPt.y⟩

/-- `angleOf(vector) = Math.atan2(vector.y, vector.x)`. -/
noncomputable def angleOf (vector : Vector2D) : ℝ :=
  JsMath.atan2 (vector.y : ℝ) (vector.x : ℝ)

/-- The body of `computeSegments`' `forEach`, as structural recursion on the
segment list with the running cursor as an argument. -/
def computeSegmentsAux (cursor : Vector2D) : List ContourSegment → List SegmentComputation
  | [] => []
  | segment :: rest =>
    let e := resolveEndPoint segment cursor
    ⟨cursor, e, ⟨e.x - cursor.x, e.y - cursor.y⟩, segment⟩ :: computeSegmentsAux e rest

/-- `computeSegments` of `src/lib/svgFrame.ts`: walk the contour from
`profile.origin ?? {x: 0, y: 0}`. -/
def computeSegments (profile : ProfileContour) : List SegmentComputation :=
  computeSegmentsAux (profile.origin.getD ⟨0, 0⟩) profile.segments

/-- `describeTransitionReason` of `src/lib/svgFrame.ts`: two lines whose
direction angles differ by less than `1e-3` are a coplanar continuation; any
other line/line pair is a bend, and every pair involving an arc is a
transition. -/
noncomputable def describeTransitionReason (prev next : ContourSegment)
    (prevAngle nextAngle : ℝ) : TransitionReason :=
  match prev, next with
  | .line _ _ _, .line _ _ _ =>
    if |prevAngle - nextAngle| < 1 / 1000 then .coplanarLine else .lineToLine
  | .line _ _ _, .arc _ _ _ => .lineToArc
  | .arc _ _ _, .line _ _ _ => .arcToLine
  | .arc _ _ _, .arc _ _ _ => .arcTransition

/-- One iteration of the event-collection loop of `generateFrameSvg`
(lines 168-175): a non-coplanar transition between adjacent segments `s` and
`t` contributes the rounded absolute x-coordinate of the shared boundary
`s.end`; a coplanar one contributes nothing. -/
noncomputable def transitionEvent (s t : SegmentComputation) : Option ℚ :=
  if describeTransitionReason s.segment t.segment (angleOf s.vector) (angleOf t.vector)
      = .coplanarLine then none
  else some (round |s.endPt.x|)

/-- The list of event offsets contributed by the adjacent pairs of the segment
list, in contour order (one entry per non-coplanar pair, duplicates kept). -/
noncomputable def transitionEventOffsets (segments : List SegmentComputation) : List ℚ :=
  (segments.zip segments.tail).filterMap fun st => transitionEvent st.1 st.2

/-- The deduplicated, ascending event-offset list of `generateFrameSvg`
(the JavaScript `Set` followed by `Array.from(...).sort((a, b) => a - b)`:
its result is the sorted list of the distinct collected values, which is what
`dedup` followed by a sort produces). -/
noncomputable def eventOffsets (profile : ProfileContour) : List ℚ :=
  List.insertionSort (· ≤ ·) (transitionEventOffsets (computeSegments profile)).dedup

/-- The caller-supplied `options` object of `generateFrameSvg`. -/
structure FrameOptions where
  marginRatio : Option ℚ
  edgePad : Option ℚ
deriving DecidableEq

/-- `options?.edgePad ?? 0.02`. -/
def edgePadOf (options : Option FrameOptions) : ℚ :=
  (options.bind fun o => o.edgePad).getD (1 / 50)

/-- `generateFrameSvg` of `src/lib/svgFrame.ts`.  Throwing
`new Error('Painting dimensions must be positive numbers.')` is embedded as
`Except.error`.  The bound-but-unused `marginRatio` option of the source is not
needed by any computed value.  `highlightBands` is the literal empty array of
source line 182 (the source never pushes to it). -/
noncomputable def generateFrameSvg (painting : PaintingDimensions)
    (profile : ProfileContour) (options : Option FrameOptions) :
    Except String FrameSvgResult :=
  if painting.width ≤ 0 ∨ painting.height ≤ 0 then
    Except.error "Painting dimensions must be positive numbers."
  else
    let edgePad := edgePadOf options
    let offs := eventOffsets profile
    let rectangles := offs.map fun offset =>
      FrameRectangle.mk offset (round (painting.width + offset * 2))
        (round (painting.height + offset * 2))
    let maxOffset := offs.getLast?.getD 0
    let outerWidth := painting.width + maxOffset * 2
    let outerHeight := painting.height + maxOffset * 2
    Except.ok
      ⟨⟨round (-outerWidth / 2 - edgePad), round (-outerHeight / 2 - edgePad),
        round (outerWidth + edgePad * 2), round (outerHeight + edgePad * 2)⟩,
       rectangles, []⟩

end SvgFrame

namespace Dxf

/-- `Pt` of the DXF module. -/
@[ext]
structure Pt (α : Type) where
  x : α
  y : α
deriving DecidableEq

/-- `Prim = PrimLine | PrimArc` of the DXF module.  The source field `end` is a
Lean keyword and is called `stop` here. -/
inductive Prim (α : Type)
  | line (start stop : Pt α)
  | arc (start stop : Pt α) (radius : α) (clockwise largeArc : Bool)
      (center : Option (Pt α))
deriving DecidableEq

variable {α : Type}

/-- The start point of a primitive. -/
def Prim.start : Prim α → Pt α
  | .line s _ => s
  | .arc s _ _ _ _ _ => s

/-- The end point of a primitive. -/
def Prim.stop : Prim α → Pt α
  | .line _ e => e
  | .arc _ e _ _ _ _ => e

/-- The `reverse` closure of `chainPrimitives`: swap the endpoints and flip an
arc's sweep direction. -/
def Prim.reverse : Prim α → Prim α
  | .line s e => .line e s
  | .arc s e r cw la c => .arc e s r (!cw) la c

/-- The radius of an arc primitive, if any. -/
def Prim.radius? : Prim α → Option α
  | .line _ _ => none
  | .arc _ _ r _ _ _ => some r

/-- The `largeArc` flag of an arc primitive (`false` for a line). -/
def Prim.isLargeArc : Prim α → Bool
  | .line _ _ => false
  | .arc _ _ _ _ la _ => la

/-- The `clockwise` flag of an arc primitive (`false` for a line). -/
def Prim.isClockwise : Prim α → Bool
  | .line _ _ => false
  | .arc _ _ _ cw _ _ => cw

/-- Distance between two real points: `Math.hypot` of the coordinate
differences, as computed throughout the DXF module. -/
noncomputable def ptDistR (p q : Pt ℝ) : ℝ :=
  JsMath.hypot (p.x - q.x) (p.y - q.y)

/-- The `UNITS_TO_INCHES` lookup table: DXF `$INSUNITS` codes with a known
conversion factor to inches.  Codes outside the table yield `none`. -/
def UNITS_TO_INCHES : ℤ → Option ℚ
  | 0 => some 1
  | 1 => some 1
  | 2 => some 12
  | 3 => some 63360
  | 4 => some (1 / 25.4)
  | 5 => some (1 / 2.54)
  | 6 => some 39.37007874015748
  | 7 => some 39370.07874015748
  | 8 => some (1 / 1000000)
  | 9 => some (1 / 1000)
  | 10 => some 36
  | 11 => some 3.937007874015748e-9
  | 12 => some 3.937007874015748e-8
  | 13 => some 3.937007874015748e-5
  | 14 => some 3.937007874015748
  | 15 => some 3.937007874015748e1
  | 16 => some 3.937007874015748e2
  | 17 => some 3.937007874015748e8
  | 18 => some 1.5588457e13
  | 19 => some 5.8786254e17
  | 20 => some 1.213e19
  | 21 => some 12.0000024
  | _ => none

/-- `toInchesScale(units) = UNITS_TO_INCHES[units ?? 0] ?? 1`. -/
def toInchesScale (units : Option ℤ) : ℚ :=
  (UNITS_TO_INCHES (units.getD 0)).getD 1

/-- The rotation selector of the conversion entry point
(`'none' | 'cw90' | 'ccw90' | '180'`; the last is called `rot180` here). -/
inductive Rotate
  | none
  | cw90
  | ccw90
  | rot180
deriving DecidableEq

/-- The `rotFn` closure of `toFrameSpecFromDxf`. -/
def rotFn (rotate : Rotate) (p : Pt ℚ) : Pt ℚ :=
  match rotate with
  | .cw90 => ⟨p.y, -p.x⟩
  | .ccw90 => ⟨-p.y, p.x⟩
  | .rot180 => ⟨-p.x, -p.y⟩
  | .none => p

/-- A DXF `LINE` entity. -/
structure DxfLine where
  x1 : ℚ
  y1 : ℚ
  x2 : ℚ
  y2 : ℚ
deriving DecidableEq

/-- The conversion of an explicit DXF `LINE` entity inside
`toFrameSpecFromDxf` (line 281 of the source): scale the endpoints by the unit
factor, then apply the rotation. -/
def dxfLineToPrim (scale : ℚ) (rotate : Rotate) (ln : DxfLine) : Prim ℚ :=
  .line (rotFn rotate ⟨ln.x1 * scale, ln.y1 * scale⟩)
    (rotFn rotate ⟨ln.x2 * scale, ln.y2 * scale⟩)

/-- `bulgeToArcRadius` of the DXF module:
`included = 4·atan(|bulge|)`, `radius = chord / (2·sin(included / 2))`. -/
noncomputable def bulgeToArcRadius (chord bulge : ℝ) : ℝ :=
  let included := 4 * Real.arctan |bulge|
  chord / (2 * Real.sin (included / 2))

/-- The two candidate circle centers computed by `chooseArcCenter` before the
sweep test: the midpoint of the chord displaced by `±h` along the unit normal
`(-uy, ux)`, where `h = √(max 0 (r² - (d/2)²))` and `r = max radius (d/2)`. -/
noncomputable def arcCenterCandidates (a b : Pt ℝ) (radius : ℝ) : Pt ℝ × Pt ℝ :=
  let dx := b.x - a.x
  let dy := b.y - a.y
  let d := JsMath.hypot dx dy
  let r := max radius (d / 2)
  let mx := (a.x + b.x) / 2
  let my := (a.y + b.y) / 2
  let h2 := r * r - d / 2 * (d / 2)
  let h := Real.sqrt (max 0 h2)
  let ux := dx / d
  let uy := dy / d
  (⟨mx + -uy * h, my + ux * h⟩, ⟨mx - -uy * h, my - ux * h⟩)

/-- The sweep angle from `a` to `b` around center `c` in the requested
direction, as computed by both the `fits` and the `sweepFor` closures of
`chooseArcCenter` (the two closures evaluate the identical formula):
signed angular difference of the `atan2` angles, reduced modulo `2π` into
`[0, 2π)`. -/
noncomputable def arcSweepFor (a b : Pt ℝ) (clockwise : Bool) (c : Pt ℝ) : ℝ :=
  let a1 := JsMath.atan2 (a.y - c.y) (a.x - c.x)
  let a2 := JsMath.atan2 (b.y - c.y) (b.x - c.x)
  let s := JsMath.jsMod (if clockwise then a1 - a2 else a2 - a1) (2 * Real.pi)
  if s < 0 then s + 2 * Real.pi else s

/-- The `fits` closure of `chooseArcCenter`: the candidate's sweep in the
requested direction is classified large when it exceeds `π - 1e-6`, and the
candidate fits when that classification equals the requested `largeArc`
flag. -/
noncomputable def arcFits (a b : Pt ℝ) (clockwise largeArc : Bool) (c : Pt ℝ) : Prop :=
  (Real.pi - 1 / 1000000 < arcSweepFor a b clockwise c) ↔ largeArc = true

noncomputable instance (a b : Pt ℝ) (clockwise largeArc : Bool) (c : Pt ℝ) :
    Decidable (arcFits a b clockwise largeArc c) :=
  inferInstanceAs
    (Decidable ((Real.pi - 1 / 1000000 < arcSweepFor a b clockwise c) ↔ largeArc = true))

/-- `chooseArcCenter` of the DXF module: pick the candidate whose sweep
classification matches the requested `largeArc` flag when exactly one does,
otherwise fall back to the candidate with the smaller sweep in the requested
direction. -/
noncomputable def chooseArcCenter (a b : Pt ℝ) (radius : ℝ)
    (clockwise largeArc : Bool) : Pt ℝ :=
  let c := arcCenterCandidates a b radius
  if arcFits a b clockwise largeArc c.1 ∧ ¬arcFits a b clockwise largeArc c.2 then c.1
  else if arcFits a b clockwise largeArc c.2 ∧ ¬arcFits a b clockwise largeArc c.1 then c.2
  else if arcSweepFor a b clockwise c.1 ≤ arcSweepFor a b clockwise c.2 then c.1
  else c.2

/-- The conversion of one polyline edge inside `toFrameSpecFromDxf`
(lines 250-259 of the source): a vertex bulge of magnitude above `1e-9` makes
the edge an arc (radius from `bulgeToArcRadius`, clockwise when the bulge is
negative, large when `|bulge| > 1`, center from `chooseArcCenter`); otherwise
the edge is a line. -/
noncomputable def polylineEdgeToPrim (a b : Pt ℝ) (bulge : ℝ) : Prim ℝ :=
  if 1 / 1000000000 < |bulge| then
    let chord := JsMath.hypot (b.x - a.x) (b.y - a.y)
    let r := bulgeToArcRadius chord bulge
    let clockwise := decide (bulge < 0)
    let largeArc := decide (1 < |bulge|)
    Prim.arc a b r clockwise largeArc
      (some (chooseArcCenter a b r clockwise largeArc))
  else
    Prim.line a b

/-- The chaining tolerance `eps = 1e-5`. -/
def eps : ℚ := 1 / 100000

/-- Squared distance between two rational points. -/
def dist2 (a b : Pt ℚ) : ℚ :=
  (a.x - b.x) * (a.x - b.x) + (a.y - b.y) * (a.y - b.y)

/-- The `eq` closure of `chainPrimitives`:
`Math.hypot(a.x - b.x, a.y - b.y) <= eps`, embedded in the equivalent
square-free form (see `ptEq_iff_hypot`). -/
def ptEq (a b : Pt ℚ) : Prop :=
  dist2 a b ≤ eps * eps

instance (a b : Pt ℚ) : Decidable (ptEq a b) :=
  inferInstanceAs (Decidable (dist2 a b ≤ eps * eps))

/-- `d < best` where `best : Option ℚ` is a squared best-so-far distance and
`none` stands for the initial `Infinity`. -/
def ltOpt (d : ℚ) (best : Option ℚ) : Bool :=
  match best with
  | none => true
  | some q => decide (d < q)

/-- One step of the start-selection scan of `chainPrimitives`
(lines 344-360 of the source): compare the squared distances of the
primitive's start and end points to the origin against the best so far,
keeping the index and whether the winning endpoint was the end point
(`reverseFirst`).  The source compares `Math.hypot` distances; squared
distances compare identically (see `hypot_lt_iff`). -/
def selectStartStep (acc : ℕ × Bool × Option ℚ) (ip : ℕ × Prim ℚ) :
    ℕ × Bool × Option ℚ :=
  let ds := dist2 ip.2.start ⟨0, 0⟩
  let de := dist2 ip.2.stop ⟨0, 0⟩
  let acc1 := if ltOpt ds acc.2.2 then (ip.1, false, some ds) else acc
  if ltOpt de acc1.2.2 then (ip.1, true, some de) else acc1

/-- The start-selection scan of `chainPrimitives`: the index of the primitive
whose endpoint is closest to the origin, and whether that primitive must be
reversed so the winning endpoint becomes its start. -/
def selectStart (prims : List (Prim ℚ)) : ℕ × Bool :=
  let r := prims.enum.foldl selectStartStep (0, false, none)
  (r.1, r.2.1)

/-- The inner scan of the chain-extension loop: the first unused primitive
whose start (taken as is) or end (taken reversed) coincides with the current
chain end within `eps`. -/
def findNextAux (used : List Bool) (e : Pt ℚ) :
    List (ℕ × Prim ℚ) → Option (ℕ × Prim ℚ)
  | [] => none
  | (i, p) :: rest =>
    if used.getD i true then findNextAux used e rest
    else if ptEq e p.start then some (i, p)
    else if ptEq e p.stop then some (i, p.reverse)
    else findNextAux used e rest

/-- The inner scan of the chain-extension loop over the indexed primitive
list. -/
def findNext (prims : List (Prim ℚ)) (used : List Bool) (e : Pt ℚ) :
    Option (ℕ × Prim ℚ) :=
  findNextAux used e prims.enum

/-- The `while (true)` chain-extension loop of `chainPrimitives`, with fuel.
Each successful iteration marks one unused primitive used, so `prims.length`
units of fuel make the embedded loop terminate exactly when the source loop
does (when no unused primitive matches the current end). -/
def chainLoop (prims : List (Prim ℚ)) :
    ℕ → List Bool → Prim ℚ → List (Prim ℚ) → List (Prim ℚ)
  | 0, _, _, out => out.reverse
  | fuel + 1, used, curr, out =>
    match findNext prims used curr.stop with
    | none => out.reverse
    | some ip => chainLoop prims fuel (used.set ip.1 true) ip.2 (ip.2 :: out)

/-- `chainPrimitives` of the DXF module: orient the primitive closest to the
origin, then greedily extend the chain by endpoint matching, silently stopping
at the first gap.  (The source is only called with a nonempty list; the
embedding returns `[]` for `[]`.) -/
def chainPrimitives (prims : List (Prim ℚ)) : List (Prim ℚ) :=
  match prims with
  | [] => []
  | _ :: _ =>
    let sel := selectStart prims
    let first := prims.getD sel.1 (Prim.line ⟨0, 0⟩ ⟨0, 0⟩)
    let curr := if sel.2 then first.reverse else first
    chainLoop prims prims.length
      ((List.replicate prims.length false).set sel.1 true) curr [curr]

/-- Connectivity of a chained list: each primitive's start point coincides
with the previous primitive's end point within the chaining tolerance. -/
def chainConnected : List (Prim ℚ) → Prop
  | p :: q :: rest => ptEq p.stop q.start ∧ chainConnected (q :: rest)
  | _ => True

instance instDecChainConnected : (l : List (Prim ℚ)) → Decidable (chainConnected l)
  | [] => isTrue trivial
  | [_] => isTrue trivial
  | _ :: q :: rest =>
    @instDecidableAnd _ _ inferInstance (instDecChainConnected (q :: rest))

/-- Every input primitive appears in the output, as given or reversed. -/
def coversInput (input out : List (Prim ℚ)) : Prop :=
  ∀ p ∈ input, p ∈ out ∨ p.reverse ∈ out

instance (input out : List (Prim ℚ)) : Decidable (coversInput input out) :=
  inferInstanceAs (Decidable (∀ p ∈ input, p ∈ out ∨ p.reverse ∈ out))

/-- The four edges of the unit square, as line primitives. -/
def squareEdges : List (Prim ℚ) :=
  [.line ⟨0, 0⟩ ⟨1, 0⟩, .line ⟨1, 0⟩ ⟨1, 1⟩, .line ⟨1, 1⟩ ⟨0, 1⟩, .line ⟨0, 1⟩ ⟨0, 0⟩]

/-- All boolean lists of length `n` (reversal patterns). -/
def boolLists : ℕ → List (List Bool)
  | 0 => [[]]
  | n + 1 => (boolLists n).flatMap fun l => [false :: l, true :: l]

/-- Reverse the primitives selected by the pattern. -/
def applyRev (bs : List Bool) (prims : List (Prim ℚ)) : List (Prim ℚ) :=
  List.zipWith (fun b p => if b then p.reverse else p) bs prims

/-- The primitives not yet consumed by the chaining walk, in index order. -/
def unusedList : List (Prim ℚ) → List Bool → List (Prim ℚ)
  | p :: ps, u :: used => if u then unusedList ps used else p :: unusedList ps used
  | _, _ => []

/-- The unordered pair of a primitive and its reversal: the identity of an
edge independent of its orientation. -/
def edgeKey (p : Prim ℚ) : Sym2 (Prim ℚ) := s(p, p.reverse)

/-- A cyclically closed exact chain: consecutive primitives meet head to tail
and the last one closes back onto the first. -/
def CycChain (q : List (Prim ℚ)) : Prop :=
  List.Chain' (fun p r => p.stop = r.start) q ∧
  ∀ pl ∈ q.getLast?, ∀ ph ∈ q.head?, pl.stop = ph.start

/-- A clean closed loop: a nonempty cyclic chain whose vertices are pairwise
separated by more than the chaining tolerance. -/
def CleanLoop (q : List (Prim ℚ)) : Prop :=
  q ≠ [] ∧ CycChain q ∧ (q.map Prim.start).Pairwise fun u v => ¬ptEq u v

/-- Two primitive lists carry the same edges, as multisets of orientation-free
edge keys: one is a reordering of the other with arbitrary reversals. -/
def EdgePerm (ps q : List (Prim ℚ)) : Prop :=
  (ps.map edgeKey).Perm (q.map edgeKey)

end Dxf

/-- All ways of inserting `a` into a list (used to enumerate orderings). -/
def inserts {α : Type} (a : α) : List α → List (List α)
  | [] => [[a]]
  | b :: l => (a :: b :: l) :: (inserts a l).map (b :: ·)

/-- All orderings (permutations) of a list, enumerated structurally. -/
def perms {α : Type} : List α → List (List α)
  | [] => [[]]
  | a :: l => (perms l).flatMap (inserts a)

/-- The painting of the end-to-end scenario of claim C1. -/
def c1Painting : SvgFrame.PaintingDimensions := ⟨460, 610⟩

/-- The contour of the end-to-end scenario of claim C1: two perpendicular line
segments (relative displacements `(50, 50)` and `(30, -30)`, whose dot product
is zero) with segment boundaries at face offsets `50` and `80`. -/
def c1Profile : SvgFrame.ProfileContour :=
  ⟨[.line (some ⟨50, 50⟩) none none, .line (some ⟨30, -30⟩) none none], none⟩

/-- A contour whose single direction-change boundary lies at `x = 0`: the
first segment rises vertically from the origin, the second leaves it
horizontally. -/
def zeroOffsetProfile : SvgFrame.ProfileContour :=
  ⟨[.line (some ⟨0, 50⟩) none none, .line (some ⟨30, 0⟩) none none], none⟩

/-- The disconnected two-line input of claim C8. -/
def gapPrims : List (Dxf.Prim ℚ) :=
  [.line ⟨0, 0⟩ ⟨1, 0⟩, .line ⟨2, 0⟩ ⟨3, 0⟩]

/-! ### Supporting lemmas -/

/-- `Math.hypot x y ≤ c` compares like the squared form (for `c ≥ 0`):
this justifies the square-free embedding of the chaining tolerance test. -/
theorem hypot_le_iff (x y c : ℝ) (hc : 0 ≤ c) :
    JsMath.hypot x y ≤ c ↔ x ^ 2 + y ^ 2 ≤ c ^ 2 := by
  unfold JsMath.hypot
  rw [show c = Real.sqrt (c ^ 2) by rw [Real.sqrt_sq hc],
    Real.sqrt_le_sqrt_iff (by positivity), Real.sqrt_sq hc]

/-- Two `Math.hypot` values compare like their squared forms: this justifies
the square-free embedding of the start-selection scan of `chainPrimitives`. -/
theorem hypot_lt_hypot_iff (x y u v : ℝ) :
    JsMath.hypot x y < JsMath.hypot u v ↔ x ^ 2 + y ^ 2 < u ^ 2 + v ^ 2 := by
  unfold JsMath.hypot
  exact Real.sqrt_lt_sqrt_iff (by positivity)

/-- The embedded `ptEq` is exactly the source's
`Math.hypot(a.x - b.x, a.y - b.y) <= eps` test. -/
theorem ptEq_iff_hypot (a b : Dxf.Pt ℚ) :
    Dxf.ptEq a b ↔
      JsMath.hypot ((a.x - b.x : ℚ) : ℝ) ((a.y - b.y : ℚ) : ℝ) ≤ ((Dxf.eps : ℚ) : ℝ) := by
  rw [hypot_le_iff _ _ _ (by norm_num [Dxf.eps])]
  unfold Dxf.ptEq Dxf.dist2
  rw [show ((Dxf.eps : ℚ) : ℝ) ^ 2 = ((Dxf.eps * Dxf.eps : ℚ) : ℝ) by push_cast; ring]
  rw [show ((a.x - b.x : ℚ) : ℝ) ^ 2 + ((a.y - b.y : ℚ) : ℝ) ^ 2 =
    (((a.x - b.x) * (a.x - b.x) + (a.y - b.y) * (a.y - b.y) : ℚ) : ℝ) by push_cast; ring]
  exact_mod_cast Iff.rfl

/-- The embedded squared-distance comparison of `selectStartStep` is exactly
the source's comparison of `Math.hypot` distances. -/
theorem dist2_lt_iff_hypot (a b c d : Dxf.Pt ℚ) :
    Dxf.dist2 a b < Dxf.dist2 c d ↔
      JsMath.hypot ((a.x - b.x : ℚ) : ℝ) ((a.y - b.y : ℚ) : ℝ) <
        JsMath.hypot ((c.x - d.x : ℚ) : ℝ) ((c.y - d.y : ℚ) : ℝ) := by
  rw [hypot_lt_hypot_iff]
  unfold Dxf.dist2
  rw [show ((a.x - b.x : ℚ) : ℝ) ^ 2 + ((a.y - b.y : ℚ) : ℝ) ^ 2 =
    (((a.x - b.x) * (a.x - b.x) + (a.y - b.y) * (a.y - b.y) : ℚ) : ℝ) by push_cast; ring]
  rw [show ((c.x - d.x : ℚ) : ℝ) ^ 2 + ((c.y - d.y : ℚ) : ℝ) ^ 2 =
    (((c.x - d.x) * (c.x - d.x) + (c.y - d.y) * (c.y - d.y) : ℚ) : ℝ) by push_cast; ring]
  exact_mod_cast Iff.rfl

/-- `Math.atan2 y x` for `x > 0` is `arctan (y / x)`. -/
theorem atan2_of_pos (y x : ℝ) (hx : 0 < x) :
    JsMath.atan2 y x = Real.arctan (y / x) := by
  unfold JsMath.atan2
  rw [if_pos hx]

/-- Inserting `a` between `s` and `t` is one of the insertions of `a`
into `s ++ t`. -/
theorem mem_inserts_of {α : Type} (a : α) (s t : List α) :
    s ++ a :: t ∈ inserts a (s ++ t) := by
  induction s with
  | nil => cases t <;> simp [inserts]
  | cons b s' ih =>
    simp only [List.cons_append, inserts, List.mem_cons, List.mem_map]
    exact Or.inr ⟨s' ++ a :: t, ih, rfl⟩

/-- `perms` is complete: every reordering of a list is enumerated. -/
theorem mem_perms_of_perm {α : Type} {l₁ l₂ : List α} (h : l₁.Perm l₂) :
    l₁ ∈ perms l₂ := by
  induction l₂ generalizing l₁ with
  | nil =>
    rw [List.perm_nil] at h
    subst h
    simp [perms]
  | cons a l ih =>
    have ha : a ∈ l₁ := h.symm.subset (List.mem_cons_self a l)
    obtain ⟨s, t, rfl⟩ := List.append_of_mem ha
    have hst : (s ++ t).Perm l := ((List.perm_middle.symm).trans h).cons_inv
    unfold perms
    rw [List.mem_flatMap]
    exact ⟨s ++ t, ih hst, mem_inserts_of a s t⟩

/-- `boolLists` is complete: it enumerates every boolean list of the given
length. -/
theorem mem_boolLists_of_length : ∀ {n : ℕ} {bs : List Bool},
    bs.length = n → bs ∈ Dxf.boolLists n := by
  intro n
  induction n with
  | zero =>
    intro bs h
    rw [List.length_eq_zero] at h
    subst h
    simp [Dxf.boolLists]
  | succ n ih =>
    intro bs h
    cases bs with
    | nil => simp at h
    | cons b bs' =>
      simp only [List.length_cons, Nat.succ.injEq] at h
      unfold Dxf.boolLists
      rw [List.mem_flatMap]
      exact ⟨bs', ih h, by cases b <;> simp⟩

/-- The head of a segment walk starts at the walk's cursor. -/
theorem computeSegmentsAux_head (cursor : SvgFrame.Vector2D)
    (segs : List SvgFrame.ContourSegment) :
    ∀ s ∈ (SvgFrame.computeSegmentsAux cursor segs).head?, s.start = cursor := by
  cases segs <;> simp [SvgFrame.computeSegmentsAux]

/-- Adjacent computed segments share their boundary point: each segment starts
where the previous one ends. -/
theorem computeSegments_chain (profile : SvgFrame.ProfileContour) :
    List.Chain' (fun s t => t.start = s.endPt) (SvgFrame.computeSegments profile) := by
  unfold SvgFrame.computeSegments
  generalize profile.origin.getD ⟨0, 0⟩ = cursor
  induction profile.segments generalizing cursor with
  | nil => simp [SvgFrame.computeSegmentsAux]
  | cons seg rest ih =>
    simp only [SvgFrame.computeSegmentsAux]
    refine List.chain'_cons'.2 ⟨?_, ih _⟩
    intro t ht
    exact computeSegmentsAux_head _ _ t ht

/-- The event-offset list of `generateFrameSvg` is strictly ascending:
the collected offsets are deduplicated and then sorted. -/
theorem eventOffsets_sorted (profile : SvgFrame.ProfileContour) :
    List.Sorted (· < ·) (SvgFrame.eventOffsets profile) := by
  unfold SvgFrame.eventOffsets
  have hs := List.sorted_insertionSort (· ≤ ·)
    (SvgFrame.transitionEventOffsets (SvgFrame.computeSegments profile)).dedup
  have hn : (List.insertionSort (· ≤ ·)
      (SvgFrame.transitionEventOffsets (SvgFrame.computeSegments profile)).dedup).Nodup :=
    (List.perm_insertionSort (· ≤ ·) _).nodup_iff.2 (List.nodup_dedup _)
  exact hs.lt_of_le hn

/-- Direction angle of the first C1 segment (vector `(50, 50)`). -/
theorem angleOf_c1_first : SvgFrame.angleOf ⟨50, 50⟩ = Real.pi / 4 := by
  unfold SvgFrame.angleOf
  rw [atan2_of_pos _ _ (by norm_num)]
  norm_num [Real.arctan_one]

/-- Direction angle of the second C1 segment (vector `(30, -30)`). -/
theorem angleOf_c1_second : SvgFrame.angleOf ⟨30, -30⟩ = -(Real.pi / 4) := by
  unfold SvgFrame.angleOf
  rw [atan2_of_pos _ _ (by norm_num)]
  norm_num [Real.arctan_neg, Real.arctan_one]

/-- A right-angle bend is far outside the coplanarity tolerance. -/
theorem quarter_pi_bend_not_coplanar :
    ¬(|Real.pi / 4 - -(Real.pi / 4)| < 1 / 1000) := by
  have h := Real.pi_gt_three
  rw [abs_of_pos (by linarith)]
  push_neg
  linarith

/-- Direction angle of a straight-up segment (vector `(0, 50)`). -/
theorem angleOf_up : SvgFrame.angleOf ⟨0, 50⟩ = Real.pi / 2 := by
  unfold SvgFrame.angleOf JsMath.atan2
  norm_num

/-- Direction angle of a horizontal segment (vector `(30, 0)`). -/
theorem angleOf_flat : SvgFrame.angleOf ⟨30, 0⟩ = 0 := by
  unfold SvgFrame.angleOf
  rw [atan2_of_pos _ _ (by norm_num)]
  norm_num

/-- A vertical-to-horizontal bend is far outside the coplanarity tolerance. -/
theorem half_pi_bend_not_coplanar : ¬(|Real.pi / 2 - 0| < 1 / 1000) := by
  have h := Real.pi_gt_three
  rw [sub_zero, abs_of_pos (by linarith)]
  push_neg
  linarith

/-- The single transition of the C1 contour is a bend contributing offset 50. -/
theorem transitionEvent_c1 :
    SvgFrame.transitionEvent
      ⟨⟨0, 0⟩, ⟨50, 50⟩, ⟨50, 50⟩, .line (some ⟨50, 50⟩) none none⟩
      ⟨⟨50, 50⟩, ⟨80, 20⟩, ⟨30, -30⟩, .line (some ⟨30, -30⟩) none none⟩ = some 50 := by
  unfold SvgFrame.transitionEvent
  simp only [SvgFrame.describeTransitionReason, angleOf_c1_first, angleOf_c1_second]
  rw [if_neg quarter_pi_bend_not_coplanar]
  have h50 : SvgFrame.round (50 : ℚ) = 50 := by
    unfold SvgFrame.round SvgFrame.PRECISION
    norm_num
  simp [h50]

/-- The C1 contour yields the single event offset 50. -/
theorem eventOffsets_c1 : SvgFrame.eventOffsets c1Profile = [50] := by
  have hcs : SvgFrame.computeSegments c1Profile =
      [⟨⟨0, 0⟩, ⟨50, 50⟩, ⟨50, 50⟩, .line (some ⟨50, 50⟩) none none⟩,
       ⟨⟨50, 50⟩, ⟨80, 20⟩, ⟨30, -30⟩, .line (some ⟨30, -30⟩) none none⟩] := by
    with_unfolding_all rfl
  unfold SvgFrame.eventOffsets
  rw [hcs]
  simp only [SvgFrame.transitionEventOffsets, List.zip, List.tail, List.zipWith,
    List.filterMap, transitionEvent_c1]
  with_unfolding_all rfl

/-- Full evaluation of `generateFrameSvg` on the C1 scenario. -/
theorem generateFrameSvg_c1_eval :
    SvgFrame.generateFrameSvg c1Painting c1Profile none =
      Except.ok ⟨⟨SvgFrame.round (-(14001 : ℚ) / 50), SvgFrame.round (-(17751 : ℚ) / 50),
        SvgFrame.round (28002 / 50), SvgFrame.round (35502 / 50)⟩,
        [⟨50, 560, 710⟩], []⟩ := by
  unfold SvgFrame.generateFrameSvg
  rw [if_neg (by norm_num [c1Painting])]
  simp only [eventOffsets_c1]
  with_unfolding_all rfl

/-- The single transition of the zero-offset contour contributes offset 0. -/
theorem transitionEvent_zero :
    SvgFrame.transitionEvent
      ⟨⟨0, 0⟩, ⟨0, 50⟩, ⟨0, 50⟩, .line (some ⟨0, 50⟩) none none⟩
      ⟨⟨0, 50⟩, ⟨30, 50⟩, ⟨30, 0⟩, .line (some ⟨30, 0⟩) none none⟩ = some 0 := by
  unfold SvgFrame.transitionEvent
  simp only [SvgFrame.describeTransitionReason, angleOf_up, angleOf_flat]
  rw [if_neg half_pi_bend_not_coplanar]
  have h0 : SvgFrame.round (0 : ℚ) = 0 := by
    unfold SvgFrame.round SvgFrame.PRECISION
    norm_num
  simp [h0]

/-- The zero-offset contour yields the single event offset 0. -/
theorem eventOffsets_zero : SvgFrame.eventOffsets zeroOffsetProfile = [0] := by
  have hcs : SvgFrame.computeSegments zeroOffsetProfile =
      [⟨⟨0, 0⟩, ⟨0, 50⟩, ⟨0, 50⟩, .line (some ⟨0, 50⟩) none none⟩,
       ⟨⟨0, 50⟩, ⟨30, 50⟩, ⟨30, 0⟩, .line (some ⟨30, 0⟩) none none⟩] := by
    with_unfolding_all rfl
  unfold SvgFrame.eventOffsets
  rw [hcs]
  simp only [SvgFrame.transitionEventOffsets, List.zip, List.tail, List.zipWith,
    List.filterMap, transitionEvent_zero]
  with_unfolding_all rfl

/-- Full evaluation of `generateFrameSvg` on the zero-offset scenario. -/
theorem generateFrameSvg_zero_eval :
    SvgFrame.generateFrameSvg ⟨10, 10⟩ zeroOffsetProfile none =
      Except.ok ⟨⟨SvgFrame.round (-(251 : ℚ) / 50), SvgFrame.round (-(251 : ℚ) / 50),
        SvgFrame.round (502 / 50), SvgFrame.round (502 / 50)⟩,
        [⟨0, 10, 10⟩], []⟩ := by
  unfold SvgFrame.generateFrameSvg
  rw [if_neg (by norm_num)]
  simp only [eventOffsets_zero]
  with_unfolding_all rfl

/-- Both candidate centers of `chooseArcCenter` lie at the requested radius
from both endpoints (for distinct endpoints and a radius of at least half the
chord). -/
theorem arcCenterCandidates_dist (a b : Dxf.Pt ℝ) (radius : ℝ) (hne : a ≠ b)
    (hr : Dxf.ptDistR a b / 2 ≤ radius) :
    Dxf.ptDistR (Dxf.arcCenterCandidates a b radius).1 a = radius ∧
    Dxf.ptDistR (Dxf.arcCenterCandidates a b radius).1 b = radius ∧
    Dxf.ptDistR (Dxf.arcCenterCandidates a b radius).2 a = radius ∧
    Dxf.ptDistR (Dxf.arcCenterCandidates a b radius).2 b = radius := by
  have hxy : b.x - a.x ≠ 0 ∨ b.y - a.y ≠ 0 := by
    by_contra hc
    push_neg at hc
    obtain ⟨h1, h2⟩ := hc
    apply hne
    ext
    · linarith [sub_eq_zero.1 h1]
    · linarith [sub_eq_zero.1 h2]
  set dx := b.x - a.x with hdx
  set dy := b.y - a.y with hdy
  have hS : 0 < dx ^ 2 + dy ^ 2 := by
    rcases hxy with h | h
    · have := (sq_nonneg dx).lt_of_ne (Ne.symm (pow_ne_zero 2 h))
      nlinarith [sq_nonneg dy]
    · have := (sq_nonneg dy).lt_of_ne (Ne.symm (pow_ne_zero 2 h))
      nlinarith [sq_nonneg dx]
  have hdab : Dxf.ptDistR a b = Real.sqrt (dx ^ 2 + dy ^ 2) := by
    unfold Dxf.ptDistR JsMath.hypot
    congr 1
    ring
  unfold Dxf.ptDistR Dxf.arcCenterCandidates JsMath.hypot
  dsimp only
  rw [← hdx, ← hdy]
  set d := Real.sqrt (dx ^ 2 + dy ^ 2) with hdd
  have hd0 : 0 < d := Real.sqrt_pos.2 hS
  have hd2 : d ^ 2 = dx ^ 2 + dy ^ 2 := Real.sq_sqrt hS.le
  rw [hdab] at hr
  have hrmax : max radius (d / 2) = radius := max_eq_left hr
  have hrpos : 0 ≤ radius := le_trans (by positivity) hr
  rw [hrmax]
  have h2nn : 0 ≤ radius * radius - d / 2 * (d / 2) := by nlinarith
  rw [max_eq_right h2nn]
  set h := Real.sqrt (radius * radius - d / 2 * (d / 2)) with hh
  have hh2 : h ^ 2 = radius ^ 2 - d ^ 2 / 4 := by
    rw [hh, Real.sq_sqrt h2nn]
    ring
  have hcancel : h ^ 2 * d ^ 2 / d ^ 2 = h ^ 2 :=
    mul_div_cancel_right₀ _ (pow_ne_zero 2 hd0.ne')
  have core : ∀ px py : ℝ, px ^ 2 + py ^ 2 = radius ^ 2 →
      Real.sqrt (px ^ 2 + py ^ 2) = radius := by
    intro px py hpq
    rw [hpq, Real.sqrt_sq hrpos]
  refine ⟨core _ _ ?_, core _ _ ?_, core _ _ ?_, core _ _ ?_⟩
  · have hexp : ((a.x + b.x) / 2 + -(dy / d) * h - a.x) ^ 2 +
        ((a.y + b.y) / 2 + dx / d * h - a.y) ^ 2 =
        (dx ^ 2 + dy ^ 2) / 4 + h ^ 2 * (dx ^ 2 + dy ^ 2) / d ^ 2 := by
      field_simp
      ring
    rw [hexp, show dx ^ 2 + dy ^ 2 = d ^ 2 from hd2.symm, hcancel]
    linarith [hh2]
  · have hexp : ((a.x + b.x) / 2 + -(dy / d) * h - b.x) ^ 2 +
        ((a.y + b.y) / 2 + dx / d * h - b.y) ^ 2 =
        (dx ^ 2 + dy ^ 2) / 4 + h ^ 2 * (dx ^ 2 + dy ^ 2) / d ^ 2 := by
      field_simp
      ring
    rw [hexp, show dx ^ 2 + dy ^ 2 = d ^ 2 from hd2.symm, hcancel]
    linarith [hh2]
  · have hexp : ((a.x + b.x) / 2 - -(dy / d) * h - a.x) ^ 2 +
        ((a.y + b.y) / 2 - dx / d * h - a.y) ^ 2 =
        (dx ^ 2 + dy ^ 2) / 4 + h ^ 2 * (dx ^ 2 + dy ^ 2) / d ^ 2 := by
      field_simp
      ring
    rw [hexp, show dx ^ 2 + dy ^ 2 = d ^ 2 from hd2.symm, hcancel]
    linarith [hh2]
  · have hexp : ((a.x + b.x) / 2 - -(dy / d) * h - b.x) ^ 2 +
        ((a.y + b.y) / 2 - dx / d * h - b.y) ^ 2 =
        (dx ^ 2 + dy ^ 2) / 4 + h ^ 2 * (dx ^ 2 + dy ^ 2) / d ^ 2 := by
      field_simp
      ring
    rw [hexp, show dx ^ 2 + dy ^ 2 = d ^ 2 from hd2.symm, hcancel]
    linarith [hh2]

/-- The branch behavior of `chooseArcCenter`: the returned point is one of the
two candidates, a uniquely fitting candidate wins, and otherwise the candidate
with the smaller sweep in the requested direction wins. -/
theorem chooseArcCenter_cases (a b : Dxf.Pt ℝ) (radius : ℝ) (cw la : Bool) :
    (Dxf.chooseArcCenter a b radius cw la = (Dxf.arcCenterCandidates a b radius).1 ∨
     Dxf.chooseArcCenter a b radius cw la = (Dxf.arcCenterCandidates a b radius).2) ∧
    (Dxf.arcFits a b cw la (Dxf.arcCenterCandidates a b radius).1 ∧
      ¬Dxf.arcFits a b cw la (Dxf.arcCenterCandidates a b radius).2 →
      Dxf.chooseArcCenter a b radius cw la = (Dxf.arcCenterCandidates a b radius).1) ∧
    (Dxf.arcFits a b cw la (Dxf.arcCenterCandidates a b radius).2 ∧
      ¬Dxf.arcFits a b cw la (Dxf.arcCenterCandidates a b radius).1 →
      Dxf.chooseArcCenter a b radius cw la = (Dxf.arcCenterCandidates a b radius).2) ∧
    ((Dxf.arcFits a b cw la (Dxf.arcCenterCandidates a b radius).1 ↔
      Dxf.arcFits a b cw la (Dxf.arcCenterCandidates a b radius).2) →
      Dxf.chooseArcCenter a b radius cw la =
        if Dxf.arcSweepFor a b cw (Dxf.arcCenterCandidates a b radius).1 ≤
            Dxf.arcSweepFor a b cw (Dxf.arcCenterCandidates a b radius).2
        then (Dxf.arcCenterCandidates a b radius).1
        else (Dxf.arcCenterCandidates a b radius).2) := by
  unfold Dxf.chooseArcCenter
  dsimp only
  split_ifs with h1 h2 h3 <;>
    refine ⟨?_, ?_, ?_, ?_⟩ <;>
    first
    | exact Or.inl rfl
    | exact Or.inr rfl
    | (intro hp; first | rfl | tauto)

/-- The square root of four. -/
theorem sqrt_four : Real.sqrt ((2 : ℝ) ^ 2 + 0 ^ 2) = 2 := by
  norm_num
  rw [show (4 : ℝ) = 2 ^ 2 by norm_num, Real.sqrt_sq (by norm_num)]

/-- A bulge of 1 over a chord of length 2 reconstructs the unit radius. -/
theorem bulgeToArcRadius_two_one : Dxf.bulgeToArcRadius 2 1 = 1 := by
  unfold Dxf.bulgeToArcRadius
  rw [abs_one, Real.arctan_one]
  norm_num
  rw [show (4 : ℝ) * (Real.pi / 4) / 2 = Real.pi / 2 by ring, Real.sin_pi_div_two]
  norm_num

/-- Kernel-checked chaining of the unit square: over all 24 orderings and all
16 reversal patterns, `chainPrimitives` returns all four edges in one
connected chain. -/
theorem chainPrimitives_square_all_cases :
    ∀ input ∈ perms Dxf.squareEdges, ∀ bs ∈ Dxf.boolLists 4,
      (Dxf.chainPrimitives (Dxf.applyRev bs input)).length = 4 ∧
      Dxf.chainConnected (Dxf.chainPrimitives (Dxf.applyRev bs input)) ∧
      Dxf.coversInput (Dxf.applyRev bs input)
        (Dxf.chainPrimitives (Dxf.applyRev bs input)) :=
  of_decide_eq_true (by with_unfolding_all rfl)

namespace Dxf

/-- Shifting the enumeration base of the `findNextAux` scan shifts the returned index. -/
theorem findNextAux_enumFrom_shift (b : Bool) (used : List Bool) (e : Pt ℚ) :
    ∀ (ps : List (Prim ℚ)) (n : ℕ),
      findNextAux (b :: used) e (List.enumFrom (n + 1) ps) =
        (findNextAux used e (List.enumFrom n ps)).map fun ip => (ip.1 + 1, ip.2) := by
  intro ps
  induction ps with
  | nil => intro n; rfl
  | cons q ps ih =>
    intro n
    simp only [List.enumFrom]
    simp only [findNextAux]
    rw [List.getD_cons_succ]
    by_cases hu : used.getD n true
    · simp only [hu, if_true]
      exact ih (n + 1)
    · simp only [hu, if_false, Bool.false_eq_true]
      by_cases h1 : ptEq e q.start
      · simp [h1]
      · simp only [h1, if_false]
        by_cases h2 : ptEq e q.stop
        · simp [h2]
        · simp only [h2, if_false]
          exact ih (n + 1)

/-- Unfolding of `findNext` on a cons cell. -/
theorem findNext_cons (p : Prim ℚ) (ps : List (Prim ℚ)) (u : Bool) (used : List Bool)
    (e : Pt ℚ) :
    findNext (p :: ps) (u :: used) e =
      if u then (findNext ps used e).map (fun ip => (ip.1 + 1, ip.2))
      else if ptEq e p.start then some (0, p)
      else if ptEq e p.stop then some (0, p.reverse)
      else (findNext ps used e).map (fun ip => (ip.1 + 1, ip.2)) := by
  unfold findNext
  show findNextAux (u :: used) e ((0, p) :: List.enumFrom 1 ps) = _
  simp only [findNextAux]
  rw [List.getD_cons_zero]
  cases u with
  | true =>
    simp only [if_true]
    exact findNextAux_enumFrom_shift true used e ps 0
  | false =>
    simp only [if_false, Bool.false_eq_true]
    by_cases h1 : ptEq e p.start
    · simp [h1]
    · simp only [h1, if_false]
      by_cases h2 : ptEq e p.stop
      · simp [h2]
      · simp only [h2, if_false]
        exact findNextAux_enumFrom_shift false used e ps 0

/-- The scan finds nothing iff no unused primitive touches the current end point. -/
theorem findNext_none_iff : ∀ (ps : List (Prim ℚ)) (used : List Bool) (e : Pt ℚ),
    used.length = ps.length →
    (findNext ps used e = none ↔
      ∀ p ∈ unusedList ps used, ¬ptEq e p.start ∧ ¬ptEq e p.stop) := by
  intro ps
  induction ps with
  | nil =>
    intro used e hlen
    obtain rfl := List.length_eq_zero.1 (by simpa using hlen)
    simp [findNext, findNextAux, unusedList]
  | cons p ps ih =>
    intro used e hlen
    cases used with
    | nil => simp at hlen
    | cons u used =>
      simp only [List.length_cons, Nat.succ.injEq] at hlen
      rw [findNext_cons]
      cases u with
      | true =>
        simp only [if_true]
        show _ = none ↔ ∀ p ∈ unusedList ps used, _
        rw [Option.map_eq_none']
        exact ih used e hlen
      | false =>
        simp only [if_false, Bool.false_eq_true]
        show _ ↔ ∀ x ∈ p :: unusedList ps used, _
        by_cases h1 : ptEq e p.start
        · simp only [h1, if_true, List.forall_mem_cons]
          constructor
          · intro h
            cases h
          · rintro ⟨⟨ha, -⟩, -⟩
            exact absurd trivial ha
        · rw [if_neg h1]
          by_cases h2 : ptEq e p.stop
          · simp only [h2, if_true, List.forall_mem_cons]
            constructor
            · intro h
              cases h
            · rintro ⟨⟨-, hb⟩, -⟩
              exact absurd trivial hb
          · rw [if_neg h2, Option.map_eq_none', ih used e hlen]
            simp only [List.forall_mem_cons]
            constructor
            · intro h
              exact ⟨⟨h1, h2⟩, h⟩
            · rintro ⟨-, h⟩
              exact h

/-- Reversing a primitive twice is the identity. -/
theorem Prim.reverse_reverse (p : Prim ℚ) : p.reverse.reverse = p := by
  cases p <;> simp [Prim.reverse]

/-- The start of a reversed primitive is the original end. -/
theorem Prim.reverse_start (p : Prim ℚ) : p.reverse.start = p.stop := by
  cases p <;> rfl

/-- The end of a reversed primitive is the original start. -/
theorem Prim.reverse_stop (p : Prim ℚ) : p.reverse.stop = p.start := by
  cases p <;> rfl

/-- Two primitives share their edge key iff they are equal or mutually reversed. -/
theorem edgeKey_eq_iff (p r : Prim ℚ) : edgeKey p = edgeKey r ↔ p = r ∨ p = r.reverse := by
  unfold edgeKey
  rw [Sym2.eq_iff]
  constructor
  · rintro (⟨h, -⟩ | ⟨h, -⟩)
    · exact Or.inl h
    · exact Or.inr h
  · rintro (rfl | rfl)
    · exact Or.inl ⟨rfl, rfl⟩
    · exact Or.inr ⟨rfl, Prim.reverse_reverse r⟩

/-- The chaining tolerance test is reflexive. -/
theorem ptEq_refl (a : Pt ℚ) : ptEq a a := by
  unfold ptEq dist2 eps
  norm_num

/-- The chaining tolerance test is symmetric. -/
theorem ptEq_symm {a b : Pt ℚ} (h : ptEq a b) : ptEq b a := by
  unfold ptEq dist2 at h ⊢
  nlinarith [h]

/-- Equal points pass the chaining tolerance test. -/
theorem ptEq_of_eq {a b : Pt ℚ} (h : a = b) : ptEq a b := h ▸ ptEq_refl a

/-- A successful `findNext` scan returns an unused primitive (as is or reversed) matching the current end point, and marking it used removes exactly that primitive from the unused list. -/
theorem findNext_some_set : ∀ (ps : List (Prim ℚ)) (used : List Bool) (e : Pt ℚ)
    (i : ℕ) (p : Prim ℚ), used.length = ps.length →
    findNext ps used e = some (i, p) →
    ∃ p₀ l₁ l₂,
      ((p = p₀ ∧ ptEq e p₀.start) ∨ (p = p₀.reverse ∧ ptEq e p₀.stop)) ∧
      unusedList ps used = l₁ ++ p₀ :: l₂ ∧
      unusedList ps (used.set i true) = l₁ ++ l₂ := by
  intro ps
  induction ps with
  | nil =>
    intro used e i p hlen h
    obtain rfl := List.length_eq_zero.1 (by simpa using hlen)
    simp [findNext, findNextAux] at h
  | cons p' ps ih =>
    intro used e i p hlen h
    cases used with
    | nil => simp at hlen
    | cons u used =>
      simp only [List.length_cons, Nat.succ.injEq] at hlen
      rw [findNext_cons] at h
      cases u with
      | true =>
        simp only [if_true] at h
        cases hfn : findNext ps used e with
        | none =>
          rw [hfn] at h
          cases h
        | some jp =>
          rw [hfn] at h
          simp only [Option.map_some'] at h
          injection h with h'
          have hi : jp.1 + 1 = i := congrArg Prod.fst h'
          have hp : jp.2 = p := congrArg Prod.snd h'
          subst hi
          subst hp
          obtain ⟨p₀, l₁, l₂, hd, h1, h2⟩ := ih used e jp.1 jp.2 hlen hfn
          refine ⟨p₀, l₁, l₂, hd, ?_, ?_⟩
          · simpa [unusedList] using h1
          · rw [List.set_cons_succ]
            simpa [unusedList] using h2
      | false =>
        simp only [if_false, Bool.false_eq_true] at h
        by_cases h1 : ptEq e p'.start
        · rw [if_pos h1] at h
          injection h with h'
          have hi : (0 : ℕ) = i := congrArg Prod.fst h'
          have hp : p' = p := congrArg Prod.snd h'
          subst hi
          subst hp
          refine ⟨p', [], unusedList ps used, Or.inl ⟨rfl, h1⟩, ?_, ?_⟩
          · simp [unusedList]
          · rw [List.set_cons_zero]
            simp [unusedList]
        · rw [if_neg h1] at h
          by_cases h2 : ptEq e p'.stop
          · rw [if_pos h2] at h
            injection h with h'
            have hi : (0 : ℕ) = i := congrArg Prod.fst h'
            have hp : p'.reverse = p := congrArg Prod.snd h'
            subst hi
            subst hp
            refine ⟨p', [], unusedList ps used, Or.inr ⟨rfl, h2⟩, ?_, ?_⟩
            · simp [unusedList]
            · rw [List.set_cons_zero]
              simp [unusedList]
          · rw [if_neg h2] at h
            cases hfn : findNext ps used e with
            | none =>
              rw [hfn] at h
              cases h
            | some jp =>
              rw [hfn] at h
              simp only [Option.map_some'] at h
              injection h with h'
              have hi : jp.1 + 1 = i := congrArg Prod.fst h'
              have hp : jp.2 = p := congrArg Prod.snd h'
              subst hi
              subst hp
              obtain ⟨p₀, l₁, l₂, hd, hh1, hh2⟩ := ih used e jp.1 jp.2 hlen hfn
              refine ⟨p₀, p' :: l₁, l₂, hd, ?_, ?_⟩
              · simp [unusedList, hh1]
              · rw [List.set_cons_succ]
                simp [unusedList, hh2]

/-- With the all-`false` used mask every primitive is unused. -/
theorem unusedList_replicate : ∀ ps : List (Prim ℚ),
    unusedList ps (List.replicate ps.length false) = ps := by
  intro ps
  induction ps with
  | nil => rfl
  | cons p ps ih =>
    simp only [List.length_cons, List.replicate_succ, unusedList, if_false,
      Bool.false_eq_true]
    simp [ih]

/-- Marking one index of the all-`false` mask splits the unused list around that primitive. -/
theorem unusedList_replicate_set : ∀ (ps : List (Prim ℚ)) (s : ℕ), s < ps.length →
    ∃ l₁ l₂, ps = l₁ ++ ps.getD s (Prim.line ⟨0, 0⟩ ⟨0, 0⟩) :: l₂ ∧
      unusedList ps ((List.replicate ps.length false).set s true) = l₁ ++ l₂ := by
  intro ps
  induction ps with
  | nil =>
    intro s hs
    simp at hs
  | cons p ps ih =>
    intro s hs
    cases s with
    | zero =>
      refine ⟨[], ps, by simp, ?_⟩
      simp only [List.length_cons, List.replicate_succ, List.set_cons_zero]
      simp [unusedList, unusedList_replicate]
    | succ s =>
      obtain ⟨l₁, l₂, hsplit, hrest⟩ := ih s (by simpa using hs)
      refine ⟨p :: l₁, l₂, ?_, ?_⟩
      · simpa using hsplit
      · simp only [List.length_cons, List.replicate_succ, List.set_cons_succ]
        simp [unusedList, hrest]

/-- In a head-to-tail chain, every non-head start point occurs among the stop points. -/
theorem chain_start_mem : ∀ (a : Prim ℚ) (l : List (Prim ℚ)),
    List.Chain' (fun p r => p.stop = r.start) (a :: l) →
    ∀ x ∈ l, x.start ∈ (a :: l).map Prim.stop := by
  intro a l
  induction l generalizing a with
  | nil => simp
  | cons b l ih =>
    intro h x hx
    rcases List.mem_cons.1 hx with rfl | hx
    · have hab : a.stop = x.start := (List.chain'_cons.1 h).1
      rw [← hab]
      simp
    · have := ih b (List.chain'_cons.1 h).2 x hx
      simp only [List.map_cons, List.mem_cons] at this ⊢
      tauto

/-- The edge key is invariant under reversal. -/
theorem edgeKey_reverse (p : Prim ℚ) : edgeKey p.reverse = edgeKey p := by
  unfold edgeKey
  rw [Prim.reverse_reverse]
  exact Sym2.eq_swap

/-- Main invariant of the greedy chain-extension loop: if the unused primitives are, up to edge keys, exactly a path that continues the current chain head to tail, and all its end points are pairwise separated by more than the tolerance, the loop emits the whole path. -/
theorem chainLoop_completes : ∀ (path ps : List (Prim ℚ)) (used : List Bool)
    (curr : Prim ℚ) (out : List (Prim ℚ)) (fuel : ℕ),
    used.length = ps.length →
    path.length ≤ fuel →
    ((unusedList ps used).map edgeKey).Perm (path.map edgeKey) →
    List.Chain' (fun p r => p.stop = r.start) (curr :: path) →
    ((curr :: path).map Prim.stop).Pairwise (fun u v => ¬ptEq u v) →
    chainLoop ps fuel used curr out = out.reverse ++ path := by
  intro path
  induction path with
  | nil =>
    intro ps used curr out fuel hlen hfuel hk hchain hsep
    have hempty : unusedList ps used = [] := by
      have h1 : (unusedList ps used).map edgeKey = [] := hk.eq_nil
      exact List.map_eq_nil_iff.1 h1
    have hnone : findNext ps used curr.stop = none :=
      (findNext_none_iff ps used curr.stop hlen).2 (by simp [hempty])
    cases fuel with
    | zero =>
      simp only [chainLoop]
      simp
    | succ f =>
      simp only [chainLoop]
      rw [hnone]
      simp
  | cons r rest ih =>
    intro ps used curr out fuel hlen hfuel hk hchain hsep
    cases fuel with
    | zero => simp at hfuel
    | succ f =>
      have hchain1 : curr.stop = r.start := (List.chain'_cons.1 hchain).1
      have hchain2 : List.Chain' (fun p q => p.stop = q.start) (r :: rest) :=
        (List.chain'_cons.1 hchain).2
      have hsep1 : ∀ w ∈ (r :: rest).map Prim.stop, ¬ptEq curr.stop w :=
        (List.pairwise_cons.1 hsep).1
      have hsep2 : ((r :: rest).map Prim.stop).Pairwise (fun u v => ¬ptEq u v) :=
        (List.pairwise_cons.1 hsep).2
      have hne : findNext ps used curr.stop ≠ none := by
        intro hnone
        have hall := (findNext_none_iff ps used curr.stop hlen).1 hnone
        have hkr : edgeKey r ∈ (unusedList ps used).map edgeKey := by
          rw [hk.mem_iff]
          simp
        obtain ⟨p₀, hp₀mem, hp₀key⟩ := List.mem_map.1 hkr
        rcases (edgeKey_eq_iff p₀ r).1 hp₀key with rfl | hrev
        · exact (hall _ hp₀mem).1 (by rw [← hchain1]; exact ptEq_refl _)
        · refine (hall _ hp₀mem).2 ?_
          rw [hrev, Prim.reverse_stop, ← hchain1]
          exact ptEq_refl _
      obtain ⟨⟨i, p⟩, hfn⟩ := Option.ne_none_iff_exists'.1 hne
      obtain ⟨p₀, l₁, l₂, hd, hu1, hu2⟩ :=
        findNext_some_set ps used curr.stop i p hlen hfn
      have hpe : ptEq curr.stop p.start := by
        rcases hd with ⟨rfl, h⟩ | ⟨rfl, h⟩
        · exact h
        · rw [Prim.reverse_start]
          exact h
      have hkey : edgeKey p = edgeKey p₀ := by
        rcases hd with ⟨rfl, -⟩ | ⟨rfl, -⟩
        · rfl
        · exact edgeKey_reverse p₀
      have hp₀mem : p₀ ∈ unusedList ps used := by
        rw [hu1]
        simp
      have hkps : edgeKey p₀ ∈ (r :: rest).map edgeKey := by
        rw [← hk.mem_iff]
        exact List.mem_map_of_mem _ hp₀mem
      obtain ⟨e', he'mem, he'key⟩ := List.mem_map.1 hkps
      have hpe' : p = e' ∨ p = e'.reverse := (edgeKey_eq_iff p e').1 (hkey.trans he'key.symm)
      have hpr : p = r := by
        rcases List.mem_cons.1 he'mem with rfl | he'rest
        · rcases hpe' with rfl | rfl
          · rfl
          · exfalso
            rw [Prim.reverse_start] at hpe
            exact hsep1 _ (by simp) hpe
        · exfalso
          have hstart : e'.start ∈ (r :: rest).map Prim.stop :=
            chain_start_mem r rest hchain2 e' he'rest
          have hstop : e'.stop ∈ (r :: rest).map Prim.stop :=
            List.mem_map_of_mem _ (List.mem_cons_of_mem r he'rest)
          rcases hpe' with rfl | rfl
          · exact hsep1 _ hstart hpe
          · rw [Prim.reverse_start] at hpe
            exact hsep1 _ hstop hpe
      subst hpr
      have hkeyr : edgeKey p₀ = edgeKey p := hkey.symm
      have hk' : ((unusedList ps (used.set i true)).map edgeKey).Perm
          (rest.map edgeKey) := by
        rw [hu2]
        have hmid : ((l₁ ++ p₀ :: l₂).map edgeKey).Perm
            (edgeKey p₀ :: (l₁ ++ l₂).map edgeKey) := by
          simp only [List.map_append, List.map_cons]
          exact List.perm_middle
        have htr := hmid.symm.trans (hu1 ▸ hk)
        rw [List.map_cons, hkeyr] at htr
        exact htr.cons_inv
      simp only [chainLoop]
      rw [hfn]
      show chainLoop ps f (used.set i true) p (p :: out) = out.reverse ++ p :: rest
      have hrec := ih ps (used.set i true) p (p :: out) f
        (by simp [hlen]) (by simpa using hfuel) hk' hchain2 hsep2
      rw [hrec]
      simp

/-- A cyclic chain may be rotated. -/
theorem cycChain_rotate (l₁ l₂ : List (Prim ℚ)) (h : CycChain (l₁ ++ l₂)) :
    CycChain (l₂ ++ l₁) := by
  obtain ⟨hc, hw⟩ := h
  rw [List.chain'_append] at hc
  obtain ⟨hc1, hc2, hlink⟩ := hc
  constructor
  · rw [List.chain'_append]
    refine ⟨hc2, hc1, ?_⟩
    intro x hx y hy
    have hl₂ : l₂ ≠ [] := by rintro rfl; simp at hx
    have hl₁ : l₁ ≠ [] := by rintro rfl; simp at hy
    apply hw
    · rw [List.getLast?_append_of_ne_nil _ hl₂]
      exact hx
    · rw [List.head?_append_of_ne_nil _ hl₁]
      exact hy
  · intro pl hpl ph hph
    by_cases hl₁ : l₁ = []
    · subst hl₁
      simp only [List.append_nil] at hpl hph
      exact hw pl (by simpa using hpl) ph (by simpa using hph)
    · by_cases hl₂ : l₂ = []
      · subst hl₂
        simp only [List.nil_append] at hpl hph
        exact hw pl (by simpa using hpl) ph (by simpa using hph)
      · rw [List.getLast?_append_of_ne_nil _ hl₁] at hpl
        rw [List.head?_append_of_ne_nil _ hl₂] at hph
        exact hlink pl hpl ph hph

/-- A cyclic chain may be traversed backwards with every primitive reversed. -/
theorem cycChain_flip (q : List (Prim ℚ)) (h : CycChain q) :
    CycChain (q.reverse.map Prim.reverse) := by
  obtain ⟨hc, hw⟩ := h
  constructor
  · rw [List.chain'_map, List.chain'_reverse]
    refine hc.imp ?_
    intro a b hab
    show b.reverse.stop = a.reverse.start
    rw [Prim.reverse_stop, Prim.reverse_start]
    exact hab.symm
  · intro pl hpl ph hph
    rw [List.getLast?_map, List.getLast?_reverse] at hpl
    rw [List.head?_map, List.head?_reverse] at hph
    rw [Option.mem_def, Option.map_eq_some'] at hpl hph
    obtain ⟨h₀, hh₀, rfl⟩ := hpl
    obtain ⟨lst, hlst, rfl⟩ := hph
    rw [Prim.reverse_stop, Prim.reverse_start]
    exact (hw lst (Option.mem_def.2 hlst) h₀ (Option.mem_def.2 hh₀)).symm

/-- In a head-to-tail chain the stop points are the shifted start points plus the final stop. -/
theorem chain_map_stop_eq : ∀ (l : List (Prim ℚ)),
    List.Chain' (fun p r => p.stop = r.start) l →
    l.map Prim.stop = (l.map Prim.start).tail ++ (l.getLast?.map Prim.stop).toList := by
  intro l
  induction l with
  | nil => intro _; rfl
  | cons p l ih =>
    intro h
    cases l with
    | nil => simp
    | cons r rest =>
      have h1 : p.stop = r.start := (List.chain'_cons.1 h).1
      have h2 := ih (List.chain'_cons.1 h).2
      simp only [List.map_cons, List.tail_cons] at h2 ⊢
      rw [h2, h1]
      simp

/-- In a nonempty cyclic chain, the stop points are a permutation of the start points. -/
theorem cyc_stops_perm_starts (q : List (Prim ℚ)) (h : CycChain q) (hne : q ≠ []) :
    (q.map Prim.stop).Perm (q.map Prim.start) := by
  obtain ⟨hc, hw⟩ := h
  obtain ⟨p, rest, rfl⟩ := List.exists_cons_of_ne_nil hne
  have heq := chain_map_stop_eq (p :: rest) hc
  have hsome : ((p :: rest).getLast?).isSome := List.getLast?_isSome.2 (by simp)
  obtain ⟨lst, hlst⟩ := Option.isSome_iff_exists.1 hsome
  have hwrap : lst.stop = p.start := hw lst (Option.mem_def.2 hlst) p rfl
  rw [hlst] at heq
  simp only [Option.map_some', Option.toList_some] at heq
  rw [heq, hwrap]
  simp only [List.map_cons, List.tail_cons]
  exact List.perm_append_singleton _ _

/-- Exact head-to-tail chaining implies chaining within the tolerance. -/
theorem chainConnected_of_chain' : ∀ l : List (Prim ℚ),
    List.Chain' (fun p r => p.stop = r.start) l → chainConnected l := by
  intro l
  induction l with
  | nil => intro _; trivial
  | cons p l ih =>
    intro h
    cases l with
    | nil => trivial
    | cons r rest =>
      exact ⟨ptEq_of_eq (List.chain'_cons.1 h).1, ih (List.chain'_cons.1 h).2⟩

/-- Each start-selection step keeps the accumulator index or takes the scanned one. -/
theorem selectStartStep_fst (acc : ℕ × Bool × Option ℚ) (ip : ℕ × Prim ℚ) :
    (selectStartStep acc ip).1 = acc.1 ∨ (selectStartStep acc ip).1 = ip.1 := by
  unfold selectStartStep
  dsimp only
  split_ifs <;> simp

/-- The start-selection fold keeps the index below the bound. -/
theorem selectStart_fold_lt (n : ℕ) : ∀ (l : List (ℕ × Prim ℚ)) (acc : ℕ × Bool × Option ℚ),
    (∀ ip ∈ l, ip.1 < n) → acc.1 < n → (l.foldl selectStartStep acc).1 < n := by
  intro l
  induction l with
  | nil => intro acc _ h; exact h
  | cons ip l ih =>
    intro acc hl hacc
    apply ih
    · intro x hx
      exact hl x (List.mem_cons_of_mem _ hx)
    · rcases selectStartStep_fst acc ip with h | h <;> rw [h]
      · exact hacc
      · exact hl ip (List.mem_cons_self _ _)

/-- On a nonempty list, the selected start index is in range. -/
theorem selectStart_lt (ps : List (Prim ℚ)) (h : ps ≠ []) :
    (selectStart ps).1 < ps.length := by
  unfold selectStart
  dsimp only
  apply selectStart_fold_lt
  · rintro ⟨i, p⟩ hip
    rw [List.mk_mem_enum_iff_getElem?] at hip
    exact (List.getElem?_eq_some.1 hip).1
  · exact List.length_pos.2 h

/-- Edge keys are invariant under reversing every primitive. -/
theorem map_edgeKey_map_reverse (l : List (Prim ℚ)) :
    (l.map Prim.reverse).map edgeKey = l.map edgeKey := by
  rw [List.map_map]
  exact List.map_congr_left fun p _ => edgeKey_reverse p

/-- Stop points of the reversed primitives are the original start points. -/
theorem map_stop_map_reverse (l : List (Prim ℚ)) :
    (l.map Prim.reverse).map Prim.stop = l.map Prim.start := by
  rw [List.map_map]
  exact List.map_congr_left fun p _ => Prim.reverse_stop p

/-- From a cyclic chain and a starting primitive taken as is or reversed, a full walk of the loop exists: it is cyclic, carries the same edge keys, its stop points permute the start points of the loop, and it has the same length. -/
theorem exists_walk (q : List (Prim ℚ)) (hcyc : CycChain q) (e : Prim ℚ)
    (s₁ t : List (Prim ℚ)) (hdec : q = s₁ ++ e :: t) (curr : Prim ℚ)
    (hc : curr = e ∨ curr = e.reverse) :
    ∃ path : List (Prim ℚ),
      CycChain (curr :: path) ∧
      ((curr :: path).map edgeKey).Perm (q.map edgeKey) ∧
      ((curr :: path).map Prim.stop).Perm (q.map Prim.start) ∧
      (curr :: path).length = q.length := by
  have hqne : q ≠ [] := by
    intro h
    rw [hdec] at h
    simp at h
  rcases hc with rfl | rfl
  · refine ⟨t ++ s₁, ?_, ?_, ?_, ?_⟩
    · have h := cycChain_rotate s₁ (curr :: t) (hdec ▸ hcyc)
      simpa using h
    · have hpw : (curr :: (t ++ s₁)).Perm q := by
        rw [hdec]
        have h1 : curr :: (t ++ s₁) = (curr :: t) ++ s₁ := by simp
        rw [h1]
        exact List.perm_append_comm
      exact hpw.map edgeKey
    · have hpw : (curr :: (t ++ s₁)).Perm q := by
        rw [hdec]
        have h1 : curr :: (t ++ s₁) = (curr :: t) ++ s₁ := by simp
        rw [h1]
        exact List.perm_append_comm
      exact (hpw.map Prim.stop).trans (cyc_stops_perm_starts q hcyc hqne)
    · have hpw : (curr :: (t ++ s₁)).Perm q := by
        rw [hdec]
        have h1 : curr :: (t ++ s₁) = (curr :: t) ++ s₁ := by simp
        rw [h1]
        exact List.perm_append_comm
      exact hpw.length_eq
  · refine ⟨(s₁.reverse ++ t.reverse).map Prim.reverse, ?_, ?_, ?_, ?_⟩
    · have hflip := cycChain_flip q hcyc
      have hform : q.reverse.map Prim.reverse =
          (t.reverse.map Prim.reverse) ++ (e.reverse :: s₁.reverse.map Prim.reverse) := by
        rw [hdec]
        simp
      rw [hform] at hflip
      have h := cycChain_rotate _ _ hflip
      simpa using h
    · have hbase : (e :: (s₁.reverse ++ t.reverse)).Perm q := by
        rw [hdec]
        exact ((s₁.reverse_perm.append t.reverse_perm).cons e).trans List.perm_middle.symm
      have h1 : (e.reverse :: (s₁.reverse ++ t.reverse).map Prim.reverse).map edgeKey
          = (e :: (s₁.reverse ++ t.reverse)).map edgeKey :=
        map_edgeKey_map_reverse (e :: (s₁.reverse ++ t.reverse))
      rw [h1]
      exact hbase.map edgeKey
    · have hbase : (e :: (s₁.reverse ++ t.reverse)).Perm q := by
        rw [hdec]
        exact ((s₁.reverse_perm.append t.reverse_perm).cons e).trans List.perm_middle.symm
      have h1 : (e.reverse :: (s₁.reverse ++ t.reverse).map Prim.reverse).map Prim.stop
          = (e :: (s₁.reverse ++ t.reverse)).map Prim.start :=
        map_stop_map_reverse (e :: (s₁.reverse ++ t.reverse))
      rw [h1]
      exact hbase.map Prim.start
    · have hbase : (e :: (s₁.reverse ++ t.reverse)).Perm q := by
        rw [hdec]
        exact ((s₁.reverse_perm.append t.reverse_perm).cons e).trans List.perm_middle.symm
      have h := hbase.length_eq
      simp only [List.length_cons, List.length_append, List.length_map,
        List.length_reverse] at h ⊢
      omega

/-- The chain-extension loop started on any primitive of a loop with separated vertices emits the whole loop. -/
theorem chainLoop_from_start (q ps : List (Prim ℚ)) (hcyc : CycChain q)
    (hsep : (q.map Prim.start).Pairwise fun u v => ¬ptEq u v)
    (hperm : (ps.map edgeKey).Perm (q.map edgeKey))
    (l₁ l₂ : List (Prim ℚ)) (first curr : Prim ℚ)
    (hsplit : ps = l₁ ++ first :: l₂)
    (hc : curr = first ∨ curr = first.reverse)
    (used : List Bool)
    (hu : unusedList ps used = l₁ ++ l₂)
    (hul : used.length = ps.length) :
    ∃ path, chainLoop ps ps.length used curr [curr] = curr :: path ∧
      ((curr :: path).map edgeKey).Perm (q.map edgeKey) ∧
      List.Chain' (fun p r => p.stop = r.start) (curr :: path) ∧
      (curr :: path).length = q.length := by
  have hck : edgeKey curr = edgeKey first := by
    rcases hc with rfl | rfl
    · rfl
    · exact edgeKey_reverse first
  have hkq : edgeKey first ∈ q.map edgeKey := by
    rw [← hperm.mem_iff, hsplit]
    simp
  obtain ⟨e, hem, hek⟩ := List.mem_map.1 hkq
  obtain ⟨s₁, t, hdec⟩ := List.append_of_mem hem
  have hfe : first = e ∨ first = e.reverse := (edgeKey_eq_iff first e).1 hek.symm
  have hce : curr = e ∨ curr = e.reverse := by
    rcases hc with rfl | rfl
    · exact hfe
    · rcases hfe with rfl | rfl
      · exact Or.inr rfl
      · exact Or.inl (Prim.reverse_reverse e)
  obtain ⟨path, hwcyc, hwkey, hwstop, hwlen⟩ := exists_walk q hcyc e s₁ t hdec curr hce
  have hlen : ps.length = q.length := by
    have h := hperm.length_eq
    simpa using h
  have hfuel : path.length ≤ ps.length := by
    simp only [List.length_cons] at hwlen
    omega
  have hk : ((unusedList ps used).map edgeKey).Perm (path.map edgeKey) := by
    rw [hu]
    have h1 : (ps.map edgeKey).Perm (edgeKey first :: (l₁ ++ l₂).map edgeKey) := by
      rw [hsplit]
      simp only [List.map_append, List.map_cons]
      exact List.perm_middle
    have h2 : ((curr :: path).map edgeKey) = edgeKey first :: path.map edgeKey := by
      rw [List.map_cons, hck]
    have h3 : (edgeKey first :: (l₁ ++ l₂).map edgeKey).Perm
        (edgeKey first :: path.map edgeKey) :=
      h1.symm.trans (hperm.trans (h2 ▸ hwkey).symm)
    exact h3.cons_inv
  have hchain : List.Chain' (fun p r => p.stop = r.start) (curr :: path) := hwcyc.1
  have hsepw : ((curr :: path).map Prim.stop).Pairwise fun u v => ¬ptEq u v :=
    (hwstop.pairwise_iff fun h hyx => h (ptEq_symm hyx)).2 hsep
  have hfin := chainLoop_completes path ps used curr [curr] ps.length hul hfuel hk hchain hsepw
  exact ⟨path, by simpa using hfin, hwkey, hchain, hwlen⟩

/-- Unfolding of `chainPrimitives` on a nonempty input. -/
theorem chainPrimitives_eq_loop (ps : List (Prim ℚ)) (h : ps ≠ []) :
    chainPrimitives ps =
      chainLoop ps ps.length
        ((List.replicate ps.length false).set (selectStart ps).1 true)
        (if (selectStart ps).2 then
          (ps.getD (selectStart ps).1 (Prim.line ⟨0, 0⟩ ⟨0, 0⟩)).reverse
         else ps.getD (selectStart ps).1 (Prim.line ⟨0, 0⟩ ⟨0, 0⟩))
        [if (selectStart ps).2 then
          (ps.getD (selectStart ps).1 (Prim.line ⟨0, 0⟩ ⟨0, 0⟩)).reverse
         else ps.getD (selectStart ps).1 (Prim.line ⟨0, 0⟩ ⟨0, 0⟩)] := by
  obtain ⟨a, ps', rfl⟩ := List.exists_cons_of_ne_nil h
  rfl

/-- For every input carrying exactly the edges of a clean closed loop, `chainPrimitives` returns a list of the full length that is chained within the tolerance and covers every input primitive as given or reversed. -/
theorem chainPrimitives_of_edgePerm (q ps : List (Prim ℚ))
    (hq : CleanLoop q) (hps : EdgePerm ps q) :
    (chainPrimitives ps).length = ps.length ∧
    chainConnected (chainPrimitives ps) ∧
    coversInput ps (chainPrimitives ps) := by
  obtain ⟨hqne, hcyc, hsep⟩ := hq
  have hperm : (ps.map edgeKey).Perm (q.map edgeKey) := hps
  have hlen : ps.length = q.length := by
    have h := hperm.length_eq
    simpa using h
  have hpsne : ps ≠ [] := by
    have h0 : 0 < q.length := List.length_pos.2 hqne
    apply List.ne_nil_of_length_pos
    omega
  have hslt : (selectStart ps).1 < ps.length := selectStart_lt ps hpsne
  obtain ⟨l₁, l₂, hsplit, hunused⟩ := unusedList_replicate_set ps (selectStart ps).1 hslt
  have hul : ((List.replicate ps.length false).set (selectStart ps).1 true).length
      = ps.length := by
    simp
  obtain ⟨path, hloop, hkey, hchain, hwlen⟩ :=
    chainLoop_from_start q ps hcyc hsep hperm l₁ l₂
      (ps.getD (selectStart ps).1 (Prim.line ⟨0, 0⟩ ⟨0, 0⟩))
      (if (selectStart ps).2 then
        (ps.getD (selectStart ps).1 (Prim.line ⟨0, 0⟩ ⟨0, 0⟩)).reverse
       else ps.getD (selectStart ps).1 (Prim.line ⟨0, 0⟩ ⟨0, 0⟩))
      hsplit (by split_ifs <;> simp) _ hunused hul
  have hcp : chainPrimitives ps =
      (if (selectStart ps).2 then
        (ps.getD (selectStart ps).1 (Prim.line ⟨0, 0⟩ ⟨0, 0⟩)).reverse
       else ps.getD (selectStart ps).1 (Prim.line ⟨0, 0⟩ ⟨0, 0⟩)) :: path := by
    rw [chainPrimitives_eq_loop ps hpsne]
    exact hloop
  refine ⟨?_, ?_, ?_⟩
  · rw [hcp, hwlen]
    exact hlen.symm
  · rw [hcp]
    exact chainConnected_of_chain' _ hchain
  · intro p hp
    rw [hcp]
    have h1 : edgeKey p ∈ q.map edgeKey := by
      rw [← hperm.mem_iff]
      exact List.mem_map_of_mem _ hp
    have h2 : edgeKey p ∈
        ((if (selectStart ps).2 then
          (ps.getD (selectStart ps).1 (Prim.line ⟨0, 0⟩ ⟨0, 0⟩)).reverse
         else ps.getD (selectStart ps).1 (Prim.line ⟨0, 0⟩ ⟨0, 0⟩)) :: path).map edgeKey := by
      rw [hkey.mem_iff]
      exact h1
    obtain ⟨w, hwm, hwk⟩ := List.mem_map.1 h2
    rcases (edgeKey_eq_iff w p).1 hwk with rfl | rfl
    · exact Or.inl hwm
    · exact Or.inr hwm

/-- Reversal patterns do not change the edge keys. -/
theorem map_edgeKey_applyRev : ∀ (bs : List Bool) (input : List (Prim ℚ)),
    bs.length = input.length →
    (applyRev bs input).map edgeKey = input.map edgeKey := by
  intro bs
  induction bs with
  | nil =>
    intro input h
    cases input with
    | nil => rfl
    | cons p l => simp at h
  | cons b bs ih =>
    intro input h
    cases input with
    | nil => simp at h
    | cons p l =>
      show edgeKey (if b then p.reverse else p) :: (applyRev bs l).map edgeKey
          = edgeKey p :: l.map edgeKey
      rw [ih l (by simpa using h)]
      congr 1
      split_ifs
      · exact edgeKey_reverse p
      · rfl

/-- A full-length reversal pattern preserves the length. -/
theorem applyRev_length (bs : List Bool) (input : List (Prim ℚ))
    (h : bs.length = input.length) : (applyRev bs input).length = input.length := by
  simp [applyRev, h]

/-- The four unit-square edges form a clean closed loop. -/
theorem cleanLoop_squareEdges : CleanLoop squareEdges := by
  refine ⟨?_, ⟨?_, ?_⟩, ?_⟩
  · show (Prim.line ⟨0, 0⟩ ⟨1, 0⟩ :: _ : List (Prim ℚ)) ≠ []
    exact List.cons_ne_nil _ _
  · exact List.Chain.cons rfl (List.Chain.cons rfl (List.Chain.cons rfl List.Chain.nil))
  · intro pl hpl ph hph
    rw [show squareEdges.getLast? = some (.line ⟨0, 1⟩ ⟨0, 0⟩) from rfl] at hpl
    rw [show squareEdges.head? = some (.line ⟨0, 0⟩ ⟨1, 0⟩) from rfl] at hph
    injection hpl with h1
    injection hph with h2
    subst h1
    subst h2
    rfl
  · show ([⟨0, 0⟩, ⟨1, 0⟩, ⟨1, 1⟩, ⟨0, 1⟩] : List (Pt ℚ)).Pairwise fun u v => ¬ptEq u v
    norm_num [List.pairwise_cons, ptEq, dist2, eps, Pt.ext_iff]
    refine ⟨?_, ?_, ?_⟩
    · rintro ⟨x, y⟩ (⟨rfl, rfl⟩ | ⟨rfl, rfl⟩ | ⟨rfl, rfl⟩) <;> norm_num
    · rintro ⟨x, y⟩ (⟨rfl, rfl⟩ | ⟨rfl, rfl⟩) <;> norm_num
    · rintro ⟨x, y⟩ rfl rfl
      norm_num

end Dxf

/-! ### Claims -/

/-- Claim C1, counterexample: for the painting 460×610 and the contour of two
perpendicular line segments whose boundaries lie at face offsets 50 and 80,
`generateFrameSvg` returns exactly one rectangle — not the two the claim
asserts.  The final endpoint at offset 80 has no successor segment, so the
event loop, which only visits pairs of adjacent segments, never emits it. -/
theorem generateFrameSvg_c1_not_two_rectangles :
    (SvgFrame.generateFrameSvg c1Painting c1Profile none).map
      (fun r => r.rectangles.length) = Except.ok 1 := by
  rw [generateFrameSvg_c1_eval]
  rfl

/-- Claim C1, amended: for the painting 460×610 and a contour of two
perpendicular line segments whose boundaries lie at face offsets 50 and 80,
`generateFrameSvg` returns exactly one event offset, 50 — the boundary shared
by the two segments — and exactly one rectangle
`{offset: 50, width: 560, height: 710}`; the contour's final endpoint at
offset 80 generates no event because it has no successor segment. -/
theorem generateFrameSvg_c1_rectangles :
    (SvgFrame.generateFrameSvg c1Painting c1Profile none).map
      (fun r => r.rectangles) = Except.ok [⟨50, 560, 710⟩] := by
  rw [generateFrameSvg_c1_eval]
  rfl

/-- Claim C2, counterexample: a contour whose single direction-change boundary
lies at `x = 0` (a vertical first segment from the origin followed by a
horizontal one) makes `generateFrameSvg` return a rectangle with offset 0,
refuting the claim that offset 0 is never included. -/
theorem generateFrameSvg_offset_zero_rectangle :
    (SvgFrame.generateFrameSvg ⟨10, 10⟩ zeroOffsetProfile none).map
      (fun r => r.rectangles) = Except.ok [⟨0, 10, 10⟩] := by
  rw [generateFrameSvg_zero_eval]
  rfl

/-- Claim C2, amended: for every painting and contour on which
`generateFrameSvg` succeeds, the returned rectangle list is strictly ascending
in offset — the collected event offsets (already rounded to 4 decimal digits)
are deduplicated by equality and sorted, so each distinct rounded offset
yields exactly one rectangle.  A rectangle with offset 0 can occur (when a
direction-change boundary lies at `x = 0`), and two raw offsets within `1e-4`
of each other may still yield two rectangles when they round differently. -/
theorem generateFrameSvg_rectangles_sorted (p : SvgFrame.PaintingDimensions)
    (prof : SvgFrame.ProfileContour) (opts : Option SvgFrame.FrameOptions)
    (r : SvgFrame.FrameSvgResult)
    (h : SvgFrame.generateFrameSvg p prof opts = Except.ok r) :
    List.Sorted (· < ·) (r.rectangles.map SvgFrame.FrameRectangle.offset) := by
  unfold SvgFrame.generateFrameSvg at h
  by_cases hc : p.width ≤ 0 ∨ p.height ≤ 0
  · rw [if_pos hc] at h
    cases h
  · rw [if_neg hc] at h
    dsimp only at h
    injection h with h
    subst h
    rw [List.map_map]
    have hid : (SvgFrame.FrameRectangle.offset ∘ fun offset =>
        SvgFrame.FrameRectangle.mk offset (SvgFrame.round (p.width + offset * 2))
          (SvgFrame.round (p.height + offset * 2))) = id := rfl
    rw [hid, List.map_id]
    exact eventOffsets_sorted prof

/-- Witness for claim C2's theorem at a concrete successful call. -/
theorem generateFrameSvg_rectangles_sorted_witness :
    SvgFrame.generateFrameSvg ⟨1, 1⟩ ⟨[], none⟩ none =
      Except.ok ⟨⟨-(13 : ℚ) / 25, -(13 : ℚ) / 25, 26 / 25, 26 / 25⟩, [], []⟩ ∧
    List.Sorted (· < ·)
      ((SvgFrame.FrameSvgResult.mk ⟨-(13 : ℚ) / 25, -(13 : ℚ) / 25, 26 / 25, 26 / 25⟩
        [] []).rectangles.map SvgFrame.FrameRectangle.offset) := by
  have h : SvgFrame.generateFrameSvg ⟨1, 1⟩ ⟨[], none⟩ none =
      Except.ok ⟨⟨-(13 : ℚ) / 25, -(13 : ℚ) / 25, 26 / 25, 26 / 25⟩, [], []⟩ := by
    with_unfolding_all rfl
  exact ⟨h, generateFrameSvg_rectangles_sorted _ _ _ _ h⟩

/-- Claim C3: `generateFrameSvg` fails — returning the error
"Painting dimensions must be positive numbers." and no other output — exactly
when the painting's width or height is not positive; every call with both
dimensions positive succeeds. -/
theorem generateFrameSvg_error_iff (p : SvgFrame.PaintingDimensions)
    (prof : SvgFrame.ProfileContour) (opts : Option SvgFrame.FrameOptions) :
    ((∃ r, SvgFrame.generateFrameSvg p prof opts = Except.ok r) ↔
      0 < p.width ∧ 0 < p.height) ∧
    (p.width ≤ 0 ∨ p.height ≤ 0 →
      SvgFrame.generateFrameSvg p prof opts =
        Except.error "Painting dimensions must be positive numbers.") := by
  unfold SvgFrame.generateFrameSvg
  by_cases h : p.width ≤ 0 ∨ p.height ≤ 0
  · rw [if_pos h]
    refine ⟨⟨fun hex => ?_, fun hpos => ?_⟩, fun _ => rfl⟩
    · obtain ⟨r, hr⟩ := hex
      cases hr
    · rcases h with h | h <;> [linarith [hpos.1]; linarith [hpos.2]]
  · rw [if_neg h]
    push_neg at h
    refine ⟨⟨fun _ => ⟨h.1, h.2⟩, fun _ => ⟨_, rfl⟩⟩, fun hh => ?_⟩
    rcases hh with hh | hh <;> [linarith [h.1]; linarith [h.2]]

/-- Witness for claim C3's theorem: the degenerate painting `{width: 0,
height: 10}` is rejected with the error. -/
theorem generateFrameSvg_error_iff_witness :
    ((0 : ℚ) ≤ 0 ∨ (10 : ℚ) ≤ 0) ∧
    SvgFrame.generateFrameSvg ⟨0, 10⟩ c1Profile none =
      Except.error "Painting dimensions must be positive numbers." :=
  ⟨Or.inl le_rfl, (generateFrameSvg_error_iff ⟨0, 10⟩ c1Profile none).2 (Or.inl le_rfl)⟩

/-- Claim C4: adjacent computed segments share their boundary point, and the
event contributed by an adjacent pair is: nothing when both segments are lines
whose direction angles (arctangent of the displacement vectors) differ by less
than `1e-3` radians (coplanar continuation), and otherwise — line/line bend,
line/arc, arc/line or arc/arc — the absolute x-coordinate of the shared
boundary rounded to 4 decimal digits. -/
theorem transitionEvent_classification :
    (∀ profile : SvgFrame.ProfileContour,
      List.Chain' (fun s t => t.start = s.endPt) (SvgFrame.computeSegments profile)) ∧
    ∀ s t : SvgFrame.SegmentComputation,
      ((s.segment.isLine = true ∧ t.segment.isLine = true ∧
          |SvgFrame.angleOf s.vector - SvgFrame.angleOf t.vector| < 1 / 1000) →
        SvgFrame.transitionEvent s t = none) ∧
      (¬(s.segment.isLine = true ∧ t.segment.isLine = true ∧
          |SvgFrame.angleOf s.vector - SvgFrame.angleOf t.vector| < 1 / 1000) →
        SvgFrame.transitionEvent s t = some (SvgFrame.round |s.endPt.x|)) := by
  refine ⟨computeSegments_chain, fun s t => ?_⟩
  obtain ⟨ss, se, sv, sseg⟩ := s
  obtain ⟨ts, te, tv, tseg⟩ := t
  cases sseg <;> cases tseg <;>
    constructor <;>
    intro hp <;>
    simp_all [SvgFrame.transitionEvent, SvgFrame.describeTransitionReason,
      SvgFrame.ContourSegment.isLine]

/-- Witness for claim C4's theorem: a line-to-arc pair is never coplanar and
contributes the rounded absolute x-coordinate of its shared boundary. -/
theorem transitionEvent_classification_witness :
    ¬((SvgFrame.SegmentComputation.mk ⟨0, 0⟩ ⟨50, 0⟩ ⟨50, 0⟩
        (.line (some ⟨50, 0⟩) none none)).segment.isLine = true ∧
      (SvgFrame.SegmentComputation.mk ⟨50, 0⟩ ⟨50, 10⟩ ⟨0, 10⟩
        (.arc ⟨0, 10⟩ 10 none)).segment.isLine = true ∧
      |SvgFrame.angleOf ⟨50, 0⟩ - SvgFrame.angleOf ⟨0, 10⟩| < 1 / 1000) ∧
    SvgFrame.transitionEvent
      ⟨⟨0, 0⟩, ⟨50, 0⟩, ⟨50, 0⟩, .line (some ⟨50, 0⟩) none none⟩
      ⟨⟨50, 0⟩, ⟨50, 10⟩, ⟨0, 10⟩, .arc ⟨0, 10⟩ 10 none⟩ =
      some (SvgFrame.round |(50 : ℚ)|) := by
  have hnot : ¬((SvgFrame.SegmentComputation.mk ⟨0, 0⟩ ⟨50, 0⟩ ⟨50, 0⟩
      (.line (some ⟨50, 0⟩) none none)).segment.isLine = true ∧
      (SvgFrame.SegmentComputation.mk ⟨50, 0⟩ ⟨50, 10⟩ ⟨0, 10⟩
        (.arc ⟨0, 10⟩ 10 none)).segment.isLine = true ∧
      |SvgFrame.angleOf ⟨50, 0⟩ - SvgFrame.angleOf ⟨0, 10⟩| < 1 / 1000) := by
    simp [SvgFrame.ContourSegment.isLine]
  exact ⟨hnot, (transitionEvent_classification.2 _ _).2 hnot⟩

/-- Claim C5: the reconstructed arc radius is
`chord / (2·sin(includedAngle/2))` with `includedAngle = 4·atan(|bulge|)`; a
polyline-edge arc is classified large exactly when `|bulge| > 1`; and a bulge
of 1.0 between `(0, 0)` and `(2, 0)` yields `includedAngle = π` and radius 1,
the boundary case that is not yet classified large. -/
theorem bulgeToArcRadius_spec :
    (∀ chord bulge : ℝ, Dxf.bulgeToArcRadius chord bulge =
      chord / (2 * Real.sin (4 * Real.arctan |bulge| / 2))) ∧
    (∀ (a b : Dxf.Pt ℝ) (bulge : ℝ), 1 / 1000000000 < |bulge| →
      ((Dxf.polylineEdgeToPrim a b bulge).isLargeArc = true ↔ 1 < |bulge|)) ∧
    4 * Real.arctan |(1 : ℝ)| = Real.pi ∧
    Dxf.bulgeToArcRadius 2 1 = 1 ∧
    (Dxf.polylineEdgeToPrim ⟨0, 0⟩ ⟨2, 0⟩ 1).radius? = some 1 ∧
    (Dxf.polylineEdgeToPrim ⟨0, 0⟩ ⟨2, 0⟩ 1).isLargeArc = false := by
  have habs : 4 * Real.arctan |(1 : ℝ)| = Real.pi := by
    rw [abs_one, Real.arctan_one]
    ring
  refine ⟨fun chord bulge => rfl, ?_, habs, bulgeToArcRadius_two_one, ?_, ?_⟩
  · intro a b bulge h
    unfold Dxf.polylineEdgeToPrim
    rw [if_pos h]
    simp [Dxf.Prim.isLargeArc]
  · unfold Dxf.polylineEdgeToPrim
    rw [if_pos (by norm_num)]
    simp only [Dxf.Prim.radius?]
    unfold JsMath.hypot
    norm_num
    rw [show (4 : ℝ) = 2 ^ 2 by norm_num, Real.sqrt_sq (by norm_num),
      bulgeToArcRadius_two_one]
  · unfold Dxf.polylineEdgeToPrim
    rw [if_pos (by norm_num)]
    simp [Dxf.Prim.isLargeArc]

/-- Witness for claim C5's theorem: the bulge-1 edge from `(0, 0)` to `(2, 0)`
is above the arc threshold and is not classified as a large arc. -/
theorem bulgeToArcRadius_spec_witness :
    (1 : ℝ) / 1000000000 < |(1 : ℝ)| ∧
    ((Dxf.polylineEdgeToPrim ⟨0, 0⟩ ⟨2, 0⟩ 1).isLargeArc = true ↔ 1 < |(1 : ℝ)|) :=
  ⟨by norm_num, bulgeToArcRadius_spec.2.1 ⟨0, 0⟩ ⟨2, 0⟩ 1 (by norm_num)⟩

/-- Claim C6: the unit normalizer returns scale 1 for an undefined unit code
and for every code outside the lookup table, returns `1/25.4` for code 4
(millimeters), and under code 4 a `LINE` from `(0, 0)` to `(25.4, 0)`
normalizes to a line from `(0, 0)` to `(1, 0)` — exactly 1 inch long. -/
theorem toInchesScale_spec :
    Dxf.toInchesScale none = 1 ∧
    (∀ u : ℤ, Dxf.UNITS_TO_INCHES u = none → Dxf.toInchesScale (some u) = 1) ∧
    Dxf.toInchesScale (some 4) = 1 / 25.4 ∧
    Dxf.dxfLineToPrim (Dxf.toInchesScale (some 4)) Dxf.Rotate.none ⟨0, 0, 25.4, 0⟩ =
      Dxf.Prim.line ⟨0, 0⟩ ⟨1, 0⟩ := by
  refine ⟨by with_unfolding_all rfl, ?_, by with_unfolding_all rfl,
    by with_unfolding_all rfl⟩
  intro u h
  unfold Dxf.toInchesScale
  simp [h]

/-- Witness for claim C6's theorem: code 22 is outside the table and falls
back to scale 1. -/
theorem toInchesScale_spec_witness :
    Dxf.UNITS_TO_INCHES 22 = none ∧ Dxf.toInchesScale (some 22) = 1 :=
  ⟨by with_unfolding_all rfl, toInchesScale_spec.2.1 22 (by with_unfolding_all rfl)⟩

/-- Claim C7: chaining any set of primitives that already forms a closed
connected loop (a nonempty cyclic head-to-tail chain whose vertices are
pairwise separated by more than the tolerance) returns all of its primitives
in a single ordered chain in which each primitive's start point coincides with
the previous primitive's end point within the `1e-5` tolerance — for every
input ordering and for any initial reversal of any subset of the
primitives. -/
theorem chainPrimitives_closed_loop (q input : List (Dxf.Prim ℚ)) (bs : List Bool)
    (hq : Dxf.CleanLoop q) (hperm : input.Perm q) (hbs : bs.length = input.length) :
    (Dxf.chainPrimitives (Dxf.applyRev bs input)).length = q.length ∧
    Dxf.chainConnected (Dxf.chainPrimitives (Dxf.applyRev bs input)) ∧
    Dxf.coversInput (Dxf.applyRev bs input)
      (Dxf.chainPrimitives (Dxf.applyRev bs input)) := by
  have hek : Dxf.EdgePerm (Dxf.applyRev bs input) q := by
    show ((Dxf.applyRev bs input).map Dxf.edgeKey).Perm (q.map Dxf.edgeKey)
    rw [Dxf.map_edgeKey_applyRev bs input hbs]
    exact hperm.map _
  obtain ⟨h1, h2, h3⟩ := Dxf.chainPrimitives_of_edgePerm q (Dxf.applyRev bs input) hq hek
  refine ⟨?_, h2, h3⟩
  rw [h1, Dxf.applyRev_length bs input hbs, hperm.length_eq]

/-- Witness for claim C7's theorem: the four unit-square edges, fed in the
order first, third, second, fourth with the first and third input positions
reversed. -/
theorem chainPrimitives_closed_loop_witness :
    Dxf.CleanLoop Dxf.squareEdges ∧
    ([Dxf.Prim.line ⟨0, 0⟩ ⟨1, 0⟩, Dxf.Prim.line ⟨1, 1⟩ ⟨0, 1⟩,
      Dxf.Prim.line ⟨1, 0⟩ ⟨1, 1⟩, Dxf.Prim.line ⟨0, 1⟩ ⟨0, 0⟩] :
        List (Dxf.Prim ℚ)).Perm Dxf.squareEdges ∧
    ([true, false, true, false] : List Bool).length = 4 ∧
    ((Dxf.chainPrimitives (Dxf.applyRev [true, false, true, false]
        [Dxf.Prim.line ⟨0, 0⟩ ⟨1, 0⟩, Dxf.Prim.line ⟨1, 1⟩ ⟨0, 1⟩,
         Dxf.Prim.line ⟨1, 0⟩ ⟨1, 1⟩, Dxf.Prim.line ⟨0, 1⟩ ⟨0, 0⟩])).length
        = Dxf.squareEdges.length ∧
     Dxf.chainConnected (Dxf.chainPrimitives (Dxf.applyRev [true, false, true, false]
        [Dxf.Prim.line ⟨0, 0⟩ ⟨1, 0⟩, Dxf.Prim.line ⟨1, 1⟩ ⟨0, 1⟩,
         Dxf.Prim.line ⟨1, 0⟩ ⟨1, 1⟩, Dxf.Prim.line ⟨0, 1⟩ ⟨0, 0⟩])) ∧
     Dxf.coversInput (Dxf.applyRev [true, false, true, false]
        [Dxf.Prim.line ⟨0, 0⟩ ⟨1, 0⟩, Dxf.Prim.line ⟨1, 1⟩ ⟨0, 1⟩,
         Dxf.Prim.line ⟨1, 0⟩ ⟨1, 1⟩, Dxf.Prim.line ⟨0, 1⟩ ⟨0, 0⟩])
       (Dxf.chainPrimitives (Dxf.applyRev [true, false, true, false]
        [Dxf.Prim.line ⟨0, 0⟩ ⟨1, 0⟩, Dxf.Prim.line ⟨1, 1⟩ ⟨0, 1⟩,
         Dxf.Prim.line ⟨1, 0⟩ ⟨1, 1⟩, Dxf.Prim.line ⟨0, 1⟩ ⟨0, 0⟩]))) :=
  ⟨Dxf.cleanLoop_squareEdges,
   (List.Perm.swap (Dxf.Prim.line ⟨1, 0⟩ ⟨1, 1⟩) (Dxf.Prim.line ⟨1, 1⟩ ⟨0, 1⟩)
      [Dxf.Prim.line ⟨0, 1⟩ ⟨0, 0⟩]).cons (Dxf.Prim.line ⟨0, 0⟩ ⟨1, 0⟩),
   rfl,
   chainPrimitives_closed_loop Dxf.squareEdges
     [Dxf.Prim.line ⟨0, 0⟩ ⟨1, 0⟩, Dxf.Prim.line ⟨1, 1⟩ ⟨0, 1⟩,
      Dxf.Prim.line ⟨1, 0⟩ ⟨1, 1⟩, Dxf.Prim.line ⟨0, 1⟩ ⟨0, 0⟩]
     [true, false, true, false]
     Dxf.cleanLoop_squareEdges
     ((List.Perm.swap (Dxf.Prim.line ⟨1, 0⟩ ⟨1, 1⟩) (Dxf.Prim.line ⟨1, 1⟩ ⟨0, 1⟩)
        [Dxf.Prim.line ⟨0, 1⟩ ⟨0, 0⟩]).cons (Dxf.Prim.line ⟨0, 0⟩ ⟨1, 0⟩))
     rfl⟩

/-- Claim C8: on the disconnected input of the two lines `(0,0)-(1,0)` and
`(2,0)-(3,0)`, `chainPrimitives` silently terminates after the first primitive
and drops the unreachable second one; no error is raised. -/
theorem chainPrimitives_gap_drops_unreachable :
    Dxf.chainPrimitives gapPrims = [Dxf.Prim.line ⟨0, 0⟩ ⟨1, 0⟩] := by
  with_unfolding_all rfl

/-- Claim C9: for distinct endpoints and a radius of at least half the chord,
`chooseArcCenter` returns one of the two candidate circle centers, both of
which lie exactly at the requested radius from both endpoints; a candidate
whose sweep classification uniquely matches the requested large/small flag is
returned, and when both or neither match, the candidate with the smaller sweep
in the requested direction is returned. -/
theorem chooseArcCenter_spec (a b : Dxf.Pt ℝ) (radius : ℝ) (cw la : Bool)
    (hne : a ≠ b) (hr : Dxf.ptDistR a b / 2 ≤ radius) :
    (Dxf.chooseArcCenter a b radius cw la = (Dxf.arcCenterCandidates a b radius).1 ∨
     Dxf.chooseArcCenter a b radius cw la = (Dxf.arcCenterCandidates a b radius).2) ∧
    Dxf.ptDistR (Dxf.arcCenterCandidates a b radius).1 a = radius ∧
    Dxf.ptDistR (Dxf.arcCenterCandidates a b radius).1 b = radius ∧
    Dxf.ptDistR (Dxf.arcCenterCandidates a b radius).2 a = radius ∧
    Dxf.ptDistR (Dxf.arcCenterCandidates a b radius).2 b = radius ∧
    (Dxf.arcFits a b cw la (Dxf.arcCenterCandidates a b radius).1 ∧
      ¬Dxf.arcFits a b cw la (Dxf.arcCenterCandidates a b radius).2 →
      Dxf.chooseArcCenter a b radius cw la = (Dxf.arcCenterCandidates a b radius).1) ∧
    (Dxf.arcFits a b cw la (Dxf.arcCenterCandidates a b radius).2 ∧
      ¬Dxf.arcFits a b cw la (Dxf.arcCenterCandidates a b radius).1 →
      Dxf.chooseArcCenter a b radius cw la = (Dxf.arcCenterCandidates a b radius).2) ∧
    ((Dxf.arcFits a b cw la (Dxf.arcCenterCandidates a b radius).1 ↔
      Dxf.arcFits a b cw la (Dxf.arcCenterCandidates a b radius).2) →
      Dxf.chooseArcCenter a b radius cw la =
        if Dxf.arcSweepFor a b cw (Dxf.arcCenterCandidates a b radius).1 ≤
            Dxf.arcSweepFor a b cw (Dxf.arcCenterCandidates a b radius).2
        then (Dxf.arcCenterCandidates a b radius).1
        else (Dxf.arcCenterCandidates a b radius).2) :=
  have hd := arcCenterCandidates_dist a b radius hne hr
  have hc := chooseArcCenter_cases a b radius cw la
  ⟨hc.1, hd.1, hd.2.1, hd.2.2.1, hd.2.2.2, hc.2.1, hc.2.2.1, hc.2.2.2⟩

/-- Witness for claim C9's theorem: endpoints `(0, 0)` and `(2, 0)` with
radius 1 (the semicircle case). -/
theorem chooseArcCenter_spec_witness :
    ((⟨0, 0⟩ : Dxf.Pt ℝ) ≠ ⟨2, 0⟩) ∧
    Dxf.ptDistR ⟨0, 0⟩ ⟨2, 0⟩ / 2 ≤ 1 ∧
    ((Dxf.chooseArcCenter ⟨0, 0⟩ ⟨2, 0⟩ 1 false false =
        (Dxf.arcCenterCandidates ⟨0, 0⟩ ⟨2, 0⟩ 1).1 ∨
      Dxf.chooseArcCenter ⟨0, 0⟩ ⟨2, 0⟩ 1 false false =
        (Dxf.arcCenterCandidates ⟨0, 0⟩ ⟨2, 0⟩ 1).2) ∧
     Dxf.ptDistR (Dxf.arcCenterCandidates ⟨0, 0⟩ ⟨2, 0⟩ 1).1 ⟨0, 0⟩ = 1 ∧
     Dxf.ptDistR (Dxf.arcCenterCandidates ⟨0, 0⟩ ⟨2, 0⟩ 1).1 ⟨2, 0⟩ = 1 ∧
     Dxf.ptDistR (Dxf.arcCenterCandidates ⟨0, 0⟩ ⟨2, 0⟩ 1).2 ⟨0, 0⟩ = 1 ∧
     Dxf.ptDistR (Dxf.arcCenterCandidates ⟨0, 0⟩ ⟨2, 0⟩ 1).2 ⟨2, 0⟩ = 1 ∧
     (Dxf.arcFits ⟨0, 0⟩ ⟨2, 0⟩ false false (Dxf.arcCenterCandidates ⟨0, 0⟩ ⟨2, 0⟩ 1).1 ∧
       ¬Dxf.arcFits ⟨0, 0⟩ ⟨2, 0⟩ false false (Dxf.arcCenterCandidates ⟨0, 0⟩ ⟨2, 0⟩ 1).2 →
       Dxf.chooseArcCenter ⟨0, 0⟩ ⟨2, 0⟩ 1 false false =
         (Dxf.arcCenterCandidates ⟨0, 0⟩ ⟨2, 0⟩ 1).1) ∧
     (Dxf.arcFits ⟨0, 0⟩ ⟨2, 0⟩ false false (Dxf.arcCenterCandidates ⟨0, 0⟩ ⟨2, 0⟩ 1).2 ∧
       ¬Dxf.arcFits ⟨0, 0⟩ ⟨2, 0⟩ false false (Dxf.arcCenterCandidates ⟨0, 0⟩ ⟨2, 0⟩ 1).1 →
       Dxf.chooseArcCenter ⟨0, 0⟩ ⟨2, 0⟩ 1 false false =
         (Dxf.arcCenterCandidates ⟨0, 0⟩ ⟨2, 0⟩ 1).2) ∧
     ((Dxf.arcFits ⟨0, 0⟩ ⟨2, 0⟩ false false (Dxf.arcCenterCandidates ⟨0, 0⟩ ⟨2, 0⟩ 1).1 ↔
       Dxf.arcFits ⟨0, 0⟩ ⟨2, 0⟩ false false (Dxf.arcCenterCandidates ⟨0, 0⟩ ⟨2, 0⟩ 1).2) →
       Dxf.chooseArcCenter ⟨0, 0⟩ ⟨2, 0⟩ 1 false false =
         if Dxf.arcSweepFor ⟨0, 0⟩ ⟨2, 0⟩ false (Dxf.arcCenterCandidates ⟨0, 0⟩ ⟨2, 0⟩ 1).1 ≤
             Dxf.arcSweepFor ⟨0, 0⟩ ⟨2, 0⟩ false (Dxf.arcCenterCandidates ⟨0, 0⟩ ⟨2, 0⟩ 1).2
         then (Dxf.arcCenterCandidates ⟨0, 0⟩ ⟨2, 0⟩ 1).1
         else (Dxf.arcCenterCandidates ⟨0, 0⟩ ⟨2, 0⟩ 1).2)) := by
  have hne : (⟨0, 0⟩ : Dxf.Pt ℝ) ≠ ⟨2, 0⟩ := by
    intro h
    have hx := congrArg Dxf.Pt.x h
    norm_num at hx
  have hr : Dxf.ptDistR ⟨0, 0⟩ ⟨2, 0⟩ / 2 ≤ 1 := by
    unfold Dxf.ptDistR JsMath.hypot
    norm_num
    rw [show (4 : ℝ) = 2 ^ 2 by norm_num, Real.sqrt_sq (by norm_num)]
    norm_num
  exact ⟨hne, hr, chooseArcCenter_spec ⟨0, 0⟩ ⟨2, 0⟩ 1 false false hne hr⟩

/-- Claim C10: with both painting dimensions positive, `generateFrameSvg` on a
contour with an empty segment list succeeds: it returns no rectangles, no
highlight bands, and a view box that frames the painting plus the edge padding
(width plus twice the pad by height plus twice the pad, centered at the
origin). -/
theorem generateFrameSvg_empty_contour (p : SvgFrame.PaintingDimensions)
    (opts : Option SvgFrame.FrameOptions)
    (h1 : 0 < p.width) (h2 : 0 < p.height) :
    SvgFrame.generateFrameSvg p ⟨[], none⟩ opts =
      Except.ok
        ⟨⟨SvgFrame.round (-p.width / 2 - SvgFrame.edgePadOf opts),
          SvgFrame.round (-p.height / 2 - SvgFrame.edgePadOf opts),
          SvgFrame.round (p.width + SvgFrame.edgePadOf opts * 2),
          SvgFrame.round (p.height + SvgFrame.edgePadOf opts * 2)⟩, [], []⟩ := by
  unfold SvgFrame.generateFrameSvg
  rw [if_neg (by push_neg; exact ⟨h1, h2⟩)]
  have hev : SvgFrame.eventOffsets ⟨[], none⟩ = [] := by
    unfold SvgFrame.eventOffsets SvgFrame.transitionEventOffsets
      SvgFrame.computeSegments SvgFrame.computeSegmentsAux
    rfl
  simp only [hev, List.map_nil, List.getLast?_nil, Option.getD_none]
  norm_num

/-- Witness for claim C10's theorem at the painting 2×3 with default
options. -/
theorem generateFrameSvg_empty_contour_witness :
    (0 : ℚ) < 2 ∧ (0 : ℚ) < 3 ∧
    SvgFrame.generateFrameSvg ⟨2, 3⟩ ⟨[], none⟩ none =
      Except.ok
        ⟨⟨SvgFrame.round (-(2 : ℚ) / 2 - SvgFrame.edgePadOf none),
          SvgFrame.round (-(3 : ℚ) / 2 - SvgFrame.edgePadOf none),
          SvgFrame.round ((2 : ℚ) + SvgFrame.edgePadOf none * 2),
          SvgFrame.round ((3 : ℚ) + SvgFrame.edgePadOf none * 2)⟩, [], []⟩ :=
  ⟨by norm_num, by norm_num,
    generateFrameSvg_empty_contour ⟨2, 3⟩ none (by norm_num) (by norm_num)⟩
